import Mathlib

/-!
# rpgunpack: decoding of RGSSAD archives (versions 1 and 3)

A shallow embedding of `src/main.cpp` and theorems about it.

Conventions of the embedding.

* A byte is a natural number below `256`; a `std::string`, a `char[]` and a
  `std::vector<uint8_t>` are lists of bytes.  A `uint32_t` is a natural number below
  `2 ^ 32`; arithmetic that can wrap is reduced modulo `2 ^ 32` where the source wraps.
* The target is the LP64 Linux ABI the source is written for (`<unistd.h>`, `uint`):
  plain `char` is signed and 8 bits wide, `unsigned int` is 32 bits, `size_t` and
  `uint64_t` are 64 bits.  `char_to_uint` is the conversion `char → int → unsigned int`
  that the usual arithmetic conversions insert when a `char` meets a `uint32_t`.
* The host is little-endian: `read<uint32_t>` gives the value `le32` of the four bytes read.
* The archive is the list of its bytes.  `::read` on it returns the bytes available
  from the current position, at most the amount asked for.
* Loops are functions that recur on the number of iterations left, or on an iteration
  bound where the source gives none (`make_directory`, `unpack_v1`, `unpack_v3`).
* Calls that change the file system (`mkdir`, `open` for writing, `write`) are recorded,
  in order, in a trace of `Effect`s.  Whether such a call succeeds is decided by the
  environment, a parameter `io : OutputIO` giving the `errno` of each call.
* The progress line printed by the constructor of `file_record` is not modelled.
-/

namespace RpgUnpack

/-! ## Keystream ciphers -/

/-- The statement `key = (key * 7) + 3;` on a `uint32_t`. -/
def key_advance (key : Nat) : Nat := (key * 7 + 3) % 2 ^ 32

/-- Function `decrypt_v1_int`: the result and the key left in the reference argument. -/
def decrypt_v1_int (input key : Nat) : Nat × Nat :=
  let result := input ^^^ key
  let key := key_advance key
  (result, key)

/-- Function `decrypt_v3_int`. -/
def decrypt_v3_int (input key : Nat) : Nat := input ^^^ key

/-- Conversion of a (signed) `char` holding byte `c` to `unsigned int`: promotion to `int`
sign-extends, conversion to `unsigned int` adds `2 ^ 32` to a negative value. -/
def char_to_uint (c : Nat) : Nat := if c < 128 then c else c + (2 ^ 32 - 256)

/-- Conversion of an `unsigned int` to `char`: the low 8 bits. -/
def uint_to_char (x : Nat) : Nat := x % 256

/-- The loop of `decrypt_v1_filename`; the first argument is `n - i`, the number of
iterations left. -/
def decrypt_v1_filename.loop (input : List Nat) : Nat → Nat → Nat → List Nat → List Nat × Nat
  | 0, _, key, output => (output, key)
  | left + 1, i, key, output =>
    let chr := uint_to_char (char_to_uint (input.getD i 0) ^^^ (key &&& 0xff))
    let key := key_advance key
    if chr = 0x5c then
      decrypt_v1_filename.loop input left (i + 1) key (output.set i 0x2f)
    else
      decrypt_v1_filename.loop input left (i + 1) key (output.set i chr)

/-- Function `decrypt_v1_filename`: the returned string and the key left in the reference
argument.  `n` is a `uint`, so the length is narrowed to 32 bits. -/
def decrypt_v1_filename (input : List Nat) (key : Nat) : List Nat × Nat :=
  let output := List.replicate input.length 0
  let n := input.length % 2 ^ 32
  decrypt_v1_filename.loop input n 0 key output

/-- The loop of `decrypt_v3_filename`.  Here `chr` is declared `auto` and has the type of
the XOR, `unsigned int`; it is compared as such and narrowed only when stored. -/
def decrypt_v3_filename.loop (input : List Nat) (key : Nat) : Nat → Nat → List Nat → List Nat
  | 0, _, output => output
  | left + 1, i, output =>
    let chr := char_to_uint (input.getD i 0) ^^^ ((key >>> (8 * (i % 4))) &&& 0xff)
    if chr = 0x5c then
      decrypt_v3_filename.loop input key left (i + 1) (output.set i 0x2f)
    else
      decrypt_v3_filename.loop input key left (i + 1) (output.set i (uint_to_char chr))

/-- Function `decrypt_v3_filename`. -/
def decrypt_v3_filename (input : List Nat) (key : Nat) : List Nat :=
  let output := List.replicate input.length 0
  let n := input.length % 2 ^ 32
  decrypt_v3_filename.loop input key n 0 output

/-- The decryption loop of `file_record::extract` over `buffer`; the first argument is
`m_size - i`, the number of iterations left.  The XOR of a byte with a masked key byte is
a byte: storing it back into the `uint8_t` changes nothing. -/
def file_record.extract.loop : Nat → Nat → Nat → Nat → List Nat → List Nat
  | 0, _, _, _, buffer => buffer
  | left + 1, i, j, tmpkey, buffer =>
    let tmpkey := if j = 4 then key_advance tmpkey else tmpkey
    let j := if j = 4 then 0 else j
    let buffer := buffer.set i (buffer.getD i 0 ^^^ ((tmpkey >>> (8 * (i % 4))) &&& 0xff))
    file_record.extract.loop left (i + 1) (j + 1) tmpkey buffer

/-! ## Input and output -/

/-- What the program can throw.  `read`, `seek`, `mkdir`, `create` and `write` are the
`std::system_error`s of the call of that name; `invalid_input_file` and
`unsupported_version` are the two `std::runtime_error`s of `unpack`.  `fuel` is not thrown
by the program: it is the value of a loop of the model whose iteration bound is used up,
which does not happen with the bounds the model passes (`make_directory_no_fuel`,
`unpack_v1_no_fuel`, `unpack_v3_records_no_fuel`). -/
inductive Error where
  | read
  | seek
  | mkdir (errno : Nat)
  | create (errno : Nat)
  | write
  | invalid_input_file
  | unsupported_version
  | fuel
  deriving DecidableEq

/-- A call that changes the file system: `mkdir (path, 0755)`, `open (path, O_WRONLY |
O_CREAT | O_TRUNC, 0644)`, and `write` of a buffer to the file opened at `path`. -/
inductive Effect where
  | mkdir (path : List Nat)
  | create (path : List Nat)
  | write (path : List Nat) (data : List Nat)
  deriving DecidableEq

/-- The environment of the output side: the `errno` left by `mkdir` and by the creating
`open` on a path (`0` when the call succeeds), and whether `write` writes the whole buffer. -/
structure OutputIO where
  mkdir : List Nat → Nat
  create : List Nat → Nat
  write : List Nat → List Nat → Bool

/-- Constant `EEXIST` of `<errno.h>`. -/
def EEXIST : Nat := 17

/-- The C string a `std::string` hands to a system call through `c_str ()`: the bytes
before the first NUL. -/
def c_str (s : List Nat) : List Nat := s.takeWhile (fun c => c ≠ 0)

/-- Struct `filereader`: the bytes of the file behind `m_fd` and `m_offset`.  The position
of the descriptor and `m_offset` agree throughout, so `m_offset` stands for both;
`m_size` is the length of `data`. -/
structure filereader where
  data : List Nat
  m_offset : Nat
  deriving DecidableEq

/-- Method `filereader::offset`. -/
def filereader.offset (input : filereader) : Nat := input.m_offset

/-- Method `filereader::size`. -/
def filereader.size (input : filereader) : Nat := input.data.length

/-- The most bytes one call of `::read` transfers on Linux, `MAX_RW_COUNT` of the kernel
(`INT_MAX & PAGE_MASK` with pages of 4096 bytes). -/
def MAX_RW_COUNT : Nat := 0x7ffff000

/-- Method `filereader::read (void *, size_t)`: the one call of `::read` delivers the bytes
from the current position on, at most `amount` of them and at most `MAX_RW_COUNT`; fewer
than `amount` is an error.  A read of no bytes succeeds at any position. -/
def filereader.read (input : filereader) (amount : Nat) : Except Error (List Nat × filereader) :=
  let got := (input.data.drop input.m_offset).take (min amount MAX_RW_COUNT)
  if got.length ≠ amount then .error .read
  else .ok (got, { input with m_offset := input.m_offset + amount })

/-- The value of a little-endian `uint32_t` made of the given bytes. -/
def le32 (bytes : List Nat) : Nat :=
  bytes.getD 0 0 + 2 ^ 8 * bytes.getD 1 0 + 2 ^ 16 * bytes.getD 2 0 + 2 ^ 24 * bytes.getD 3 0

/-- Method `filereader::read<uint32_t> ()`. -/
def filereader.read_u32 (input : filereader) : Except Error (Nat × filereader) :=
  match input.read 4 with
  | .error e => .error e
  | .ok (bytes, input) => .ok (le32 bytes, input)

/-- Method `filereader::read<uint8_t> ()`. -/
def filereader.read_u8 (input : filereader) : Except Error (Nat × filereader) :=
  match input.read 1 with
  | .error e => .error e
  | .ok (bytes, input) => .ok (bytes.getD 0 0, input)

/-- Method `filereader::read_string`. -/
def filereader.read_string (input : filereader) (length : Nat) :
    Except Error (List Nat × filereader) :=
  input.read length

/-- Method `filereader::seek`: `lseek` to an absolute position fails when the position,
taken as an `off_t`, is negative. -/
def filereader.seek (input : filereader) (offset : Nat) : Except Error filereader :=
  if 2 ^ 63 ≤ offset then .error .seek
  else .ok { input with m_offset := offset }

/-- Method `std::string::find (char, size_t)`; `none` is `npos`. -/
def find (s : List Nat) (c : Nat) (pos : Nat) : Option Nat :=
  let k := (s.drop pos).indexOf c
  if pos + k < s.length then some (pos + k) else none

/-- The loop of `make_directory` from the search position `i` on. -/
def make_directory.loop (io : OutputIO) (filename : List Nat) :
    Nat → Nat → List Effect × Option Error
  | 0, i =>
    match find filename 0x2f i with
    | none => ([], none)
    | some _ => ([], some .fuel)
  | fuel + 1, i =>
    match find filename 0x2f i with
    | none => ([], none)
    | some end_ =>
      let path := c_str (filename.take end_)
      if io.mkdir path ≠ 0 ∧ io.mkdir path ≠ EEXIST then
        ([.mkdir path], some (.mkdir (io.mkdir path)))
      else
        let (trace, result) := make_directory.loop io filename fuel (end_ + 1)
        (.mkdir path :: trace, result)

/-- Function `make_directory`. -/
def make_directory (io : OutputIO) (filename : List Nat) : List Effect × Option Error :=
  make_directory.loop io filename filename.length 0

/-- Struct `file_record`. -/
structure file_record where
  m_offset : Nat
  m_size : Nat
  m_key : Nat
  m_name : List Nat
  deriving DecidableEq

/-- Method `file_record::extract`: the calls made on the output side and the reader left,
or the error thrown. -/
def file_record.extract (io : OutputIO) (r : file_record) (input : filereader) :
    List Effect × Except Error filereader :=
  match input.seek r.m_offset with
  | .error e => ([], .error e)
  | .ok input =>
    match input.read r.m_size with
    | .error e => ([], .error e)
    | .ok (buffer, input) =>
      let buffer := file_record.extract.loop r.m_size 0 0 r.m_key buffer
      match make_directory io r.m_name with
      | (trace, some e) => (trace, .error e)
      | (trace, none) =>
        let path := c_str r.m_name
        if io.create path ≠ 0 then
          (trace ++ [.create path], .error (.create (io.create path)))
        else if io.write path buffer = false then
          (trace ++ [.create path, .write path buffer], .error .write)
        else
          (trace ++ [.create path, .write path buffer], .ok input)

/-- The loop `for (const auto & r : records) r.extract (input);`. -/
def extract_records (io : OutputIO) : List file_record → filereader → List Effect × Option Error
  | [], _ => ([], none)
  | r :: records, input =>
    match r.extract io input with
    | (trace, .error e) => (trace, some e)
    | (trace, .ok input) =>
      let (trace', result) := extract_records io records input
      (trace ++ trace', result)

/-- The `while` loop of `unpack_v1`, which builds `records`. -/
def unpack_v1.loop :
    Nat → filereader → Nat → List file_record → Except Error (List file_record × filereader)
  | 0, input, _, records =>
    if input.offset < input.size then .error .fuel else .ok (records, input)
  | fuel + 1, input, directory_key, records =>
    if input.offset < input.size then
      match input.read_u32 with
      | .error e => .error e
      | .ok (word, input) =>
        let (name_length, directory_key) := decrypt_v1_int word directory_key
        match input.read_string name_length with
        | .error e => .error e
        | .ok (raw, input) =>
          let (name, directory_key) := decrypt_v1_filename raw directory_key
          match input.read_u32 with
          | .error e => .error e
          | .ok (word, input) =>
            let (size, directory_key) := decrypt_v1_int word directory_key
            let offset := input.offset
            let file_key := directory_key
            match input.seek ((offset + size) % 2 ^ 64) with
            | .error e => .error e
            | .ok input =>
              unpack_v1.loop fuel input directory_key
                (records ++ [⟨offset % 2 ^ 32, size, file_key, name⟩])
    else .ok (records, input)

/-- Function `unpack_v1`. -/
def unpack_v1 (io : OutputIO) (input : filereader) : List Effect × Option Error :=
  let directory_key := 0xdeadcafe
  match unpack_v1.loop input.size input directory_key [] with
  | .error e => ([], some e)
  | .ok (records, input) => extract_records io records input

/-- The `while` loop of `unpack_v3`, which builds `records`. -/
def unpack_v3.loop :
    Nat → filereader → Nat → List file_record → Except Error (List file_record × filereader)
  | 0, _, _, _ => .error .fuel
  | fuel + 1, input, directory_key, records =>
    match input.read_u32 with
    | .error e => .error e
    | .ok (word, input) =>
      let offset := decrypt_v3_int word directory_key
      if offset = 0 then .ok (records, input)
      else
        match input.read_u32 with
        | .error e => .error e
        | .ok (word, input) =>
          let size := decrypt_v3_int word directory_key
          match input.read_u32 with
          | .error e => .error e
          | .ok (word, input) =>
            let file_key := decrypt_v3_int word directory_key
            match input.read_u32 with
            | .error e => .error e
            | .ok (word, input) =>
              let name_length := decrypt_v3_int word directory_key
              match input.read_string name_length with
              | .error e => .error e
              | .ok (raw, input) =>
                let name := decrypt_v3_filename raw directory_key
                unpack_v3.loop fuel input directory_key
                  (records ++ [⟨offset, size, file_key, name⟩])

/-- The directory pass of `unpack_v3`: the header word, then the loop. -/
def unpack_v3.records (input : filereader) : Except Error (List file_record × filereader) :=
  match input.read_u32 with
  | .error e => .error e
  | .ok (word, input) =>
    let directory_key := (word * 9 + 3) % 2 ^ 32
    unpack_v3.loop (input.size + 1) input directory_key []

/-- Function `unpack_v3`. -/
def unpack_v3 (io : OutputIO) (input : filereader) : List Effect × Option Error :=
  match unpack_v3.records input with
  | .error e => ([], some e)
  | .ok (records, input) => extract_records io records input

/-- Function `strncmp` of `<cstring>`: the difference of the first two bytes that differ
among the first `n`, the comparison ending at a NUL; bytes past the end of an array are
not read in the uses made here and count as NUL. -/
def strncmp : List Nat → List Nat → Nat → Int
  | _, _, 0 => 0
  | s1, s2, n + 1 =>
    if s1.headD 0 ≠ s2.headD 0 then (s1.headD 0 : Int) - (s2.headD 0 : Int)
    else if s1.headD 0 = 0 then 0
    else strncmp s1.tail s2.tail n

/-- The string literal `"RGSSAD"`, an array of seven `char` with its terminator. -/
def RGSSAD : List Nat := [0x52, 0x47, 0x53, 0x53, 0x41, 0x44, 0]

/-- Function `unpack`, applied to the bytes of the file named by its argument. -/
def unpack (io : OutputIO) (data : List Nat) : List Effect × Option Error :=
  let input : filereader := ⟨data, 0⟩
  match input.read 7 with
  | .error e => ([], some e)
  | .ok (signature, input) =>
    if strncmp signature RGSSAD 7 ≠ 0 then ([], some .invalid_input_file)
    else
      match input.read_u8 with
      | .error e => ([], some e)
      | .ok (version, input) =>
        if version = 1 then unpack_v1 io input
        else if version = 3 then unpack_v3 io input
        else ([], some .unsupported_version)

/-! ## Closed forms used in the statements -/

/-- Path-separator normalisation of one decoded byte: `0x5C` becomes `0x2F`. -/
def normalize_separator (c : Nat) : Nat := if c = 0x5c then 0x2f else c

/-- The plain name obtained from `input` by the v1 filename cipher started at `key`:
byte by byte, one key advance per byte. -/
def v1_name_plain : List Nat → Nat → List Nat
  | [], _ => []
  | b :: bs, key => normalize_separator (b ^^^ (key &&& 0xff)) :: v1_name_plain bs (key_advance key)

/-- Byte `i mod 4` of a 32-bit key, low byte first: `(key >> (8 * (i % 4))) & 0xff`. -/
def key_byte (key i : Nat) : Nat := (key >>> (8 * (i % 4))) &&& 0xff

/-- What one iteration of the loop of `decrypt_v3_filename` stores at index `i` for the
input byte `b`. -/
def v3_name_byte (key i b : Nat) : Nat :=
  let chr := char_to_uint b ^^^ key_byte key i
  if chr = 0x5c then 0x2f else uint_to_char chr

/-- The string stored by the loop of `decrypt_v3_filename` for the input bytes found from
index `i` on. -/
def v3_name_from (key : Nat) : Nat → List Nat → List Nat
  | _, [] => []
  | i, b :: bs => v3_name_byte key i b :: v3_name_from key (i + 1) bs

/-- The key byte that meets content byte `i` when the content cipher starts from `key`:
the key has advanced once per completed group of four bytes. -/
def content_key_byte (key i : Nat) : Nat := key_byte (key_advance^[i / 4] key) i

/-- The content cipher in closed form, for the bytes found from index `i` on. -/
def content_cipher_from (key : Nat) : Nat → List Nat → List Nat
  | _, [] => []
  | i, b :: bs => (b ^^^ content_key_byte key i) :: content_cipher_from key (i + 1) bs

/-! ## Archives as the format lays them out

The repository has no encoder.  The definitions of this section follow the layout given in
the specification; the theorems compare what the program decodes with what they encode. -/

/-- The four bytes of a 32-bit word, low byte first. -/
def le32_bytes (w : Nat) : List Nat :=
  [w % 256, w / 2 ^ 8 % 256, w / 2 ^ 16 % 256, w / 2 ^ 24 % 256]

/-- The fixed directory key of a v3 archive with header value `h`. -/
def v3_directory_key (h : Nat) : Nat := (h * 9 + 3) % 2 ^ 32

/-- A directory record of a v3 archive: the three numbers it stores and the bytes of the
name as they stand in the archive. -/
structure v3_entry where
  offset : Nat
  size : Nat
  key : Nat
  raw_name : List Nat
  deriving DecidableEq

/-- The numbers of a record fit their 32-bit words, the offset is not the sentinel, and the
name is no longer than what one call of `::read` delivers. -/
def v3_entry.well_formed (e : v3_entry) : Prop :=
  e.offset ≠ 0 ∧ e.offset < 2 ^ 32 ∧ e.size < 2 ^ 32 ∧ e.key < 2 ^ 32 ∧
    e.raw_name.length ≤ MAX_RW_COUNT

instance (e : v3_entry) : Decidable e.well_formed := by
  unfold v3_entry.well_formed
  infer_instance

/-- The bytes of a v3 directory record under the directory key `K`. -/
def v3_entry.encode (K : Nat) (e : v3_entry) : List Nat :=
  le32_bytes (e.offset ^^^ K) ++ (le32_bytes (e.size ^^^ K) ++ (le32_bytes (e.key ^^^ K) ++
    (le32_bytes (e.raw_name.length ^^^ K) ++ e.raw_name)))

/-- The bytes of a sequence of v3 directory records. -/
def v3_encode_entries (K : Nat) : List v3_entry → List Nat
  | [] => []
  | e :: es => e.encode K ++ v3_encode_entries K es

/-- The descriptor a v3 directory record stands for. -/
def v3_entry.record (K : Nat) (e : v3_entry) : file_record :=
  ⟨e.offset, e.size, e.key, decrypt_v3_filename e.raw_name K⟩

/-- A v3 archive up to the end of its directory: signature, version byte, header word,
records, and the word that decrypts to offset `0`. -/
def v3_directory (h : Nat) (entries : List v3_entry) : List Nat :=
  RGSSAD ++ (3 :: (le32_bytes h ++ (v3_encode_entries (v3_directory_key h) entries
    ++ le32_bytes (0 ^^^ v3_directory_key h))))

/-- The v3 filename cipher applied to a plain name, for the bytes found from index `i` on:
byte `i` is XORed with byte `i mod 4` of the key. -/
def v3_encrypt_name (K : Nat) : Nat → List Nat → List Nat
  | _, [] => []
  | i, b :: bs => (b ^^^ key_byte K i) :: v3_encrypt_name K (i + 1) bs

/-- A file as it is packed into a v3 archive: name, content key, plain content and the
offset at which the encrypted content is stored. -/
structure v3_file where
  name : List Nat
  key : Nat
  content : List Nat
  offset : Nat
  deriving DecidableEq

/-- The directory record of a packed file. -/
def v3_file.entry (K : Nat) (f : v3_file) : v3_entry :=
  ⟨f.offset, f.content.length, f.key, v3_encrypt_name K 0 f.name⟩

/-- The name bytes are bytes, offset and key fit their words, the offset is not the
sentinel, and neither name nor content is longer than what one call of `::read` delivers. -/
def v3_file.well_formed (f : v3_file) : Prop :=
  f.offset ≠ 0 ∧ f.offset < 2 ^ 32 ∧ f.content.length ≤ MAX_RW_COUNT ∧ f.key < 2 ^ 32 ∧
    f.name.length ≤ MAX_RW_COUNT ∧ ∀ b ∈ f.name, b < 256

instance (f : v3_file) : Decidable f.well_formed := by
  unfold v3_file.well_formed
  infer_instance

/-- No backslash of the name stands at an index whose key byte is `0x80` or more. -/
def v3_file.separators_low (K : Nat) (f : v3_file) : Prop :=
  ∀ i, i < f.name.length → f.name.getD i 0 = 0x5c → key_byte K i < 128

instance (K : Nat) (f : v3_file) : Decidable (f.separators_low K) := by
  unfold v3_file.separators_low
  infer_instance

/-- A file as it is packed into a v1 archive. -/
structure v1_entry where
  name : List Nat
  content : List Nat
  deriving DecidableEq

/-- The v1 filename cipher applied to a plain name: one key advance per byte. -/
def v1_encrypt_name : List Nat → Nat → List Nat
  | [], _ => []
  | b :: bs, key => (b ^^^ (key &&& 0xff)) :: v1_encrypt_name bs (key_advance key)

/-- The directory key right after the size field of an entry whose name-length field is
met with `key`: one advance for each of the two integers and one per name byte. -/
def v1_content_key (e : v1_entry) (key : Nat) : Nat :=
  key_advance (key_advance^[e.name.length] (key_advance key))

/-- The bytes of the entries of a v1 archive, the first name-length field being met with
the directory key `key`. -/
def v1_encode : List v1_entry → Nat → List Nat
  | [], _ => []
  | e :: es, key =>
    le32_bytes (e.name.length ^^^ key) ++ (v1_encrypt_name e.name (key_advance key) ++
      (le32_bytes (e.content.length ^^^ key_advance^[e.name.length] (key_advance key)) ++
        (content_cipher_from (v1_content_key e key) 0 e.content ++
          v1_encode es (v1_content_key e key))))

/-- A v1 archive: signature, version byte, entries. -/
def v1_archive (entries : List v1_entry) : List Nat :=
  RGSSAD ++ (1 :: v1_encode entries 0xdeadcafe)

/-- The descriptors of the entries of a v1 archive, the first entry starting at stream
position `pos` with directory key `key`. -/
def v1_records : List v1_entry → Nat → Nat → List file_record
  | [], _, _ => []
  | e :: es, key, pos =>
    ⟨pos + 4 + e.name.length + 4, e.content.length, v1_content_key e key,
        e.name.map normalize_separator⟩ ::
      v1_records es (v1_content_key e key) (pos + 4 + e.name.length + 4 + e.content.length)

/-- The output side lets the file `name` with content `data` be written: each `mkdir` of
the part of the name before a `'/'` succeeds or reports `EEXIST`, and the creation and the
write succeed. -/
def OutputIO.accepts (io : OutputIO) (name data : List Nat) : Prop :=
  (∀ n, n < name.length → name.getD n 0 = 0x2f →
      io.mkdir (c_str (name.take n)) = 0 ∨ io.mkdir (c_str (name.take n)) = EEXIST) ∧
    io.create (c_str name) = 0 ∧ io.write (c_str name) data = true

instance (io : OutputIO) (name data : List Nat) : Decidable (io.accepts name data) := by
  unfold OutputIO.accepts
  infer_instance

/-- The file a call writes: path and bytes of a `write`, nothing for the other calls. -/
def Effect.written : Effect → Option (List Nat × List Nat)
  | .write path data => some (path, data)
  | _ => none

/-- The files written in a trace, in order. -/
def files_written (trace : List Effect) : List (List Nat × List Nat) :=
  trace.filterMap Effect.written

/-! ## Concrete inputs -/

/-- An output side on which every call succeeds. -/
def always_ok : OutputIO := ⟨fun _ => 0, fun _ => 0, fun _ _ => true⟩

/-- The file `a\b` with content `AB`, content key `7`, stored at offset `35`. -/
def example_v3_file : v3_file := ⟨[0x61, 0x5c, 0x62], 7, [0x41, 0x42], 35⟩

/-- The v3 archive with header value `100` that holds `example_v3_file`. -/
def example_v3_archive : List Nat :=
  v3_directory 100 [example_v3_file.entry (v3_directory_key 100)]
    ++ content_cipher_from 7 0 [0x41, 0x42]

/-- The file `\ab` with content `AB`: its backslash meets the key byte `0x87`. -/
def backslash_v3_file : v3_file := ⟨[0x5c, 0x61, 0x62], 7, [0x41, 0x42], 35⟩

/-- The v3 archive with header value `100` that holds `backslash_v3_file`. -/
def backslash_v3_archive : List Nat :=
  v3_directory 100 [backslash_v3_file.entry (v3_directory_key 100)]
    ++ content_cipher_from 7 0 [0x41, 0x42]

/-- A file whose name holds a NUL byte, with content `AB`. -/
def nul_v3_file : v3_file := ⟨[0x61, 0, 0x62], 7, [0x41, 0x42], 35⟩

/-- The v3 archive with header value `100` that holds `nul_v3_file`. -/
def nul_v3_archive : List Nat :=
  v3_directory 100 [nul_v3_file.entry (v3_directory_key 100)]
    ++ content_cipher_from 7 0 [0x41, 0x42]

/-- Two files for a v1 archive: `a\b` with content `AB` and `c` with content `xyz`. -/
def example_v1_entries : List v1_entry :=
  [⟨[0x61, 0x5c, 0x62], [0x41, 0x42]⟩, ⟨[0x63], [0x78, 0x79, 0x7a]⟩]

/-- One file for a v1 archive whose name holds a NUL byte. -/
def nul_v1_entries : List v1_entry := [⟨[0x61, 0, 0x62], [0x41, 0x42]⟩]

/-- A v3 directory record with offset `35`, size `2`, content key `7` and a three-byte
stored name. -/
def example_v3_entry : v3_entry := ⟨35, 2, 7, [0xe6, 0x5f, 0x62]⟩

/-! ## One iteration of the directory loops -/

/-- The body of the `while` loop of `unpack_v1`: the header of one entry is decoded at the
position of the reader and the content is skipped.  The result is the record appended to
`records`, the reader after the seek and the directory key left. -/
def unpack_v1.entry (input : filereader) (directory_key : Nat) :
    Except Error (file_record × filereader × Nat) :=
  match input.read_u32 with
  | .error e => .error e
  | .ok (word, input) =>
    let (name_length, directory_key) := decrypt_v1_int word directory_key
    match input.read_string name_length with
    | .error e => .error e
    | .ok (raw, input) =>
      let (name, directory_key) := decrypt_v1_filename raw directory_key
      match input.read_u32 with
      | .error e => .error e
      | .ok (word, input) =>
        let (size, directory_key) := decrypt_v1_int word directory_key
        let offset := input.offset
        let file_key := directory_key
        match input.seek ((offset + size) % 2 ^ 64) with
        | .error e => .error e
        | .ok input => .ok (⟨offset % 2 ^ 32, size, file_key, name⟩, input, directory_key)

/-- The condition and body of the `while` loop of `unpack_v3`: the offset word is decoded
at the position of the reader; when it is `0` there is no record, otherwise the rest of the
record is decoded.  The result is the record appended to `records`, if any, and the reader
left. -/
def unpack_v3.entry (input : filereader) (directory_key : Nat) :
    Except Error (Option file_record × filereader) :=
  match input.read_u32 with
  | .error e => .error e
  | .ok (word, input) =>
    let offset := decrypt_v3_int word directory_key
    if offset = 0 then .ok (none, input)
    else
      match input.read_u32 with
      | .error e => .error e
      | .ok (word, input) =>
        let size := decrypt_v3_int word directory_key
        match input.read_u32 with
        | .error e => .error e
        | .ok (word, input) =>
          let file_key := decrypt_v3_int word directory_key
          match input.read_u32 with
          | .error e => .error e
          | .ok (word, input) =>
            let name_length := decrypt_v3_int word directory_key
            match input.read_string name_length with
            | .error e => .error e
            | .ok (raw, input) =>
              let name := decrypt_v3_filename raw directory_key
              .ok (some ⟨offset, size, file_key, name⟩, input)

/-- A v3 archive with header value `100` and one directory record that ends behind the
record, without the word that decrypts to offset `0`. -/
def unterminated_v3_archive : List Nat :=
  RGSSAD ++ (3 :: (le32_bytes 100 ++ v3_encode_entries (v3_directory_key 100) [example_v3_entry]))

/-- A descriptor of size `0` whose offset `100` lies behind the end of a four-byte
archive. -/
def empty_record_past_end : file_record := ⟨100, 0, 7, [0x61]⟩

/-- A v3 archive with header value `100` whose one record has offset `1000` and size `0`;
the archive is `35` bytes long. -/
def empty_file_v3_archive : List Nat :=
  v3_directory 100 [⟨1000, 0, 7, [0xe6, 0x5f, 0x62]⟩]

/-- A descriptor of size `2` at offset `3` of a four-byte archive. -/
def record_past_end : file_record := ⟨3, 2, 7, [0x61, 0x2f, 0x62]⟩

/-- The records that the loop of `unpack_v1` decodes from the position `pos` with the
directory key `key`: one run of the body for each record, each starting where the one
before left the reader and the key, the last one leaving the reader at or behind the end
of the archive. -/
def v1_decodes (data : List Nat) : Nat → Nat → List file_record → Prop
  | pos, _, [] => ¬ pos < data.length
  | pos, key, r :: rs =>
    pos < data.length ∧
      ∃ pos' key', unpack_v1.entry ⟨data, pos⟩ key = .ok (r, ⟨data, pos'⟩, key') ∧
        v1_decodes data pos' key' rs

/-- The position behind a run of v3 directory records that starts at `pos`: each record
takes sixteen bytes and its name. -/
def v3_end_pos (pos : Nat) (recs : List file_record) : Nat :=
  pos + (recs.map (fun r => 16 + r.m_name.length)).sum

/-- The records `recs` are decoded one after the other from the position `pos` of `data`,
each by one run of `unpack_v3.entry` with the directory key `K`, each starting at the byte
behind the one before. -/
def v3_decodes (data : List Nat) (K : Nat) : Nat → List file_record → Prop
  | _, [] => True
  | pos, r :: rs =>
    unpack_v3.entry ⟨data, pos⟩ K = .ok (some r, ⟨data, pos + 16 + r.m_name.length⟩) ∧
      v3_decodes data K (pos + 16 + r.m_name.length) rs

/-- Two files for a v1 archive, both without content, with names of 19325 and of 31891
letters `a`.  After the first entry the directory key has advanced 19327 times and differs
from the seed in its low 15 bits only, by `31891`. -/
def sequential_entries : List v1_entry :=
  [⟨List.replicate 19325 0x61, []⟩, ⟨List.replicate 31891 0x61, []⟩]

/-! ## Directory creation as the specification words it -/

/-- Specification side of `make_directory`: the prefixes of `name` that end right before a
`'/'`, the shortest first. -/
def slash_prefixes (name : List Nat) : List (List Nat) :=
  ((List.range name.length).filter (fun n => name.getD n 0 = 0x2f)).map (fun n => name.take n)

/-- Specification side of `make_directory`: `mkdir` on each path in turn, where a call that
fails with an `errno` other than `EEXIST` ends the run with that error. -/
def create_in_order (io : OutputIO) : List (List Nat) → List Effect × Option Error
  | [] => ([], none)
  | path :: paths =>
    if io.mkdir path ≠ 0 ∧ io.mkdir path ≠ EEXIST then
      ([.mkdir path], some (.mkdir (io.mkdir path)))
    else
      (.mkdir path :: (create_in_order io paths).1, (create_in_order io paths).2)

/-- Constant `ENOENT` of `<errno.h>`. -/
def ENOENT : Nat := 2

/-- An output side on which `mkdir` of the empty path fails with `ENOENT`, as POSIX has it,
and every other call succeeds. -/
def empty_path_rejected : OutputIO :=
  ⟨fun path => if path = [] then ENOENT else 0, fun _ => 0, fun _ _ => true⟩

/-- The name `/a`. -/
def leading_slash_name : List Nat := [0x2f, 0x61]

/-- The name `a`, NUL, `b/c`. -/
def nul_directory_name : List Nat := [0x61, 0, 0x62, 0x2f, 0x63]

/-- One v1 file named `\a` with content `A`. -/
def leading_backslash_v1_entries : List v1_entry := [⟨[0x5c, 0x61], [0x41]⟩]

/-- The name `a/b/c`. -/
def nested_name : List Nat := [0x61, 0x2f, 0x62, 0x2f, 0x63]

/-! ## Bit-level facts -/

theorem and_ff (x : Nat) : x &&& 0xff = x % 256 :=
  Nat.and_pow_two_sub_one_eq_mod x 8

theorem and_ff_lt (x : Nat) : x &&& 0xff < 256 := by
  rw [and_ff]; omega

theorem xor_mod_256 (a b : Nat) : (a ^^^ b) % 256 = (a % 256) ^^^ (b % 256) := by
  apply Nat.eq_of_testBit_eq
  intro i
  have h := Nat.testBit_mod_two_pow (a ^^^ b) 8 i
  have ha := Nat.testBit_mod_two_pow a 8 i
  have hb := Nat.testBit_mod_two_pow b 8 i
  simp only [show (2 : Nat) ^ 8 = 256 by norm_num] at h ha hb
  rw [h, Nat.testBit_xor, Nat.testBit_xor, ha, hb]
  by_cases hi : i < 8 <;> simp [hi]

theorem char_to_uint_mod (c : Nat) : char_to_uint c % 256 = c % 256 := by
  unfold char_to_uint
  split <;> omega

/-- Narrowing the XOR back to `char` undoes the sign extension. -/
theorem uint_to_char_xor (c k : Nat) (hc : c < 256) (hk : k < 256) :
    uint_to_char (char_to_uint c ^^^ k) = c ^^^ k := by
  unfold uint_to_char
  rw [xor_mod_256, char_to_uint_mod, Nat.mod_eq_of_lt hc, Nat.mod_eq_of_lt hk]

theorem xor_lt_256 {a b : Nat} (ha : a < 256) (hb : b < 256) : a ^^^ b < 256 :=
  Nat.xor_lt_two_pow (n := 8) ha hb

/-! ## The v1 filename loop -/

theorem decrypt_v1_filename_loop_eq (suf : List Nat) :
    ∀ (pre done rest : List Nat) (key : Nat), done.length = pre.length →
      rest.length = suf.length → (∀ b ∈ suf, b < 256) →
      decrypt_v1_filename.loop (pre ++ suf) suf.length pre.length key (done ++ rest)
        = (done ++ v1_name_plain suf key, key_advance^[suf.length] key) := by
  induction suf with
  | nil =>
    intro pre done rest key _ hr _
    have : rest = [] := List.length_eq_zero.mp hr
    simp [decrypt_v1_filename.loop, v1_name_plain, this]
  | cons b bs ih =>
    intro pre done rest key hd hr hb
    obtain ⟨z, zs, rfl⟩ : ∃ z zs, rest = z :: zs := by
      cases rest with
      | nil => simp at hr
      | cons z zs => exact ⟨z, zs, rfl⟩
    have hb0 : b < 256 := hb b (List.mem_cons_self _ _)
    have hget : (pre ++ b :: bs).getD pre.length 0 = b := by
      rw [List.getD_eq_getElem?_getD, List.getElem?_append_right (Nat.le_refl _)]
      simp
    have hset : ∀ x, (done ++ z :: zs).set pre.length x = (done ++ [x]) ++ zs := by
      intro x
      rw [← hd]
      simp [List.set_append]
    have hchr : uint_to_char (char_to_uint b ^^^ (key &&& 0xff)) = b ^^^ (key &&& 0xff) :=
      uint_to_char_xor b _ hb0 (and_ff_lt key)
    have hlen1 : (done ++ [normalize_separator (b ^^^ (key &&& 0xff))]).length
        = (pre ++ [b]).length := by simp [hd]
    have hrec := ih (pre ++ [b]) (done ++ [normalize_separator (b ^^^ (key &&& 0xff))]) zs
      (key_advance key) hlen1 (by simpa using hr)
      (fun c hc => hb c (List.mem_cons_of_mem _ hc))
    simp only [List.append_assoc, List.singleton_append, List.length_append,
      List.length_singleton] at hrec
    simp only [List.length_cons, decrypt_v1_filename.loop, hget, hchr, hset, v1_name_plain,
      Function.iterate_succ_apply]
    by_cases h5c : b ^^^ (key &&& 0xff) = 0x5c
    · simp only [h5c, if_true]
      simp only [normalize_separator, h5c, if_true] at hrec
      simpa [normalize_separator] using hrec
    · simp only [h5c, if_false]
      simp only [normalize_separator, h5c, if_false] at hrec
      simpa [normalize_separator, h5c] using hrec

theorem decrypt_v1_filename_eq (s : List Nat) (key : Nat) (hlen : s.length < 2 ^ 32)
    (hb : ∀ b ∈ s, b < 256) :
    decrypt_v1_filename s key = (v1_name_plain s key, key_advance^[s.length] key) := by
  have h := decrypt_v1_filename_loop_eq s [] [] (List.replicate s.length 0) key rfl
    (by simp) hb
  have hmod : s.length % 2 ^ 32 = s.length := Nat.mod_eq_of_lt hlen
  simp only [decrypt_v1_filename, hmod]
  simpa using h

theorem v1_name_plain_length (s : List Nat) : ∀ key, (v1_name_plain s key).length = s.length := by
  induction s with
  | nil => intro _; rfl
  | cons b bs ih => intro key; simp [v1_name_plain, ih]

theorem v1_name_plain_getElem? (s : List Nat) :
    ∀ (key i : Nat), (v1_name_plain s key)[i]?
      = s[i]?.map (fun b => normalize_separator (b ^^^ (key_advance^[i] key &&& 0xff))) := by
  induction s with
  | nil => intro _ _; simp [v1_name_plain]
  | cons b bs ih =>
    intro key i
    cases i with
    | zero => simp [v1_name_plain]
    | succ i => simp [v1_name_plain, ih, Function.iterate_succ_apply]

/-! ## The v3 filename loop -/

theorem decrypt_v3_filename_loop_eq (key : Nat) (suf : List Nat) :
    ∀ (pre done rest : List Nat), done.length = pre.length → rest.length = suf.length →
      decrypt_v3_filename.loop (pre ++ suf) key suf.length pre.length (done ++ rest)
        = done ++ v3_name_from key pre.length suf := by
  induction suf with
  | nil =>
    intro pre done rest _ hr
    have : rest = [] := List.length_eq_zero.mp hr
    simp [decrypt_v3_filename.loop, v3_name_from, this]
  | cons b bs ih =>
    intro pre done rest hd hr
    obtain ⟨z, zs, rfl⟩ : ∃ z zs, rest = z :: zs := by
      cases rest with
      | nil => simp at hr
      | cons z zs => exact ⟨z, zs, rfl⟩
    have hget : (pre ++ b :: bs).getD pre.length 0 = b := by
      rw [List.getD_eq_getElem?_getD, List.getElem?_append_right (Nat.le_refl _)]
      simp
    have hset : ∀ x, (done ++ z :: zs).set pre.length x = (done ++ [x]) ++ zs := by
      intro x
      rw [← hd]
      simp [List.set_append]
    have hlen1 : (done ++ [v3_name_byte key pre.length b]).length = (pre ++ [b]).length := by
      simp [hd]
    have hrec := ih (pre ++ [b]) (done ++ [v3_name_byte key pre.length b]) zs hlen1
      (by simpa using hr)
    simp only [List.append_assoc, List.singleton_append, List.length_append,
      List.length_singleton] at hrec
    simp only [List.length_cons, decrypt_v3_filename.loop, hget, hset, v3_name_from]
    by_cases h5c : char_to_uint b ^^^ (key >>> (8 * (pre.length % 4)) &&& 0xff) = 0x5c
    · simp only [h5c, if_true]
      simp only [v3_name_byte, key_byte, h5c, if_true] at hrec
      simpa [v3_name_byte, key_byte, h5c] using hrec
    · simp only [h5c, if_false]
      simp only [v3_name_byte, key_byte, h5c, if_false] at hrec
      simpa [v3_name_byte, key_byte, h5c] using hrec

theorem decrypt_v3_filename_eq (s : List Nat) (key : Nat) (hlen : s.length < 2 ^ 32) :
    decrypt_v3_filename s key = v3_name_from key 0 s := by
  have h := decrypt_v3_filename_loop_eq key s [] [] (List.replicate s.length 0) rfl (by simp)
  have hmod : s.length % 2 ^ 32 = s.length := Nat.mod_eq_of_lt hlen
  simp only [decrypt_v3_filename, hmod]
  simpa using h

theorem key_byte_lt (key i : Nat) : key_byte key i < 256 := and_ff_lt _

/-- An input byte below `0x80` is decoded and normalised as intended. -/
theorem v3_name_byte_low (key i b : Nat) (hb : b < 128) :
    v3_name_byte key i b = normalize_separator (b ^^^ key_byte key i) := by
  have hx : b ^^^ key_byte key i < 256 := xor_lt_256 (by omega) (key_byte_lt key i)
  simp [v3_name_byte, normalize_separator, char_to_uint, hb, uint_to_char,
    Nat.mod_eq_of_lt hx]

/-- An input byte from `0x80` on is sign-extended, the comparison with `0x5c` fails and
the decoded byte is stored as it is. -/
theorem v3_name_byte_high (key i b : Nat) (hb : 128 ≤ b) (hb' : b < 256) :
    v3_name_byte key i b = b ^^^ key_byte key i := by
  have hk := key_byte_lt key i
  have hne : char_to_uint b ^^^ key_byte key i ≠ 0x5c := by
    intro h
    have h1 : (char_to_uint b ^^^ key_byte key i) ^^^ key_byte key i = 0x5c ^^^ key_byte key i := by
      rw [h]
    rw [Nat.xor_cancel_right] at h1
    have h2 : 0x5c ^^^ key_byte key i < 256 := xor_lt_256 (by norm_num) hk
    have h3 : char_to_uint b = b + (2 ^ 32 - 256) := by
      unfold char_to_uint
      rw [if_neg (by omega)]
    omega
  have hu := uint_to_char_xor b (key_byte key i) hb' hk
  simp only [v3_name_byte, hne, if_false, hu]

/-! ## The content loop of `file_record::extract` -/

theorem extract_loop_eq (key : Nat) (suf : List Nat) :
    ∀ (done : List Nat) (j tmpkey : Nat),
      ((done.length = 0 ∧ j = 0 ∧ tmpkey = key) ∨
        (0 < done.length ∧ j = (done.length - 1) % 4 + 1 ∧
          tmpkey = key_advance^[(done.length - 1) / 4] key)) →
      file_record.extract.loop suf.length done.length j tmpkey (done ++ suf)
        = done ++ content_cipher_from key done.length suf := by
  induction suf with
  | nil => intro done j tmpkey _; simp [file_record.extract.loop, content_cipher_from]
  | cons b bs ih =>
    intro done j tmpkey hinv
    have hget : (done ++ b :: bs).getD done.length 0 = b := by
      rw [List.getD_eq_getElem?_getD, List.getElem?_append_right (Nat.le_refl _)]
      simp
    have hset : ∀ x, (done ++ b :: bs).set done.length x = (done ++ [x]) ++ bs := by
      intro x
      simp [List.set_append]
    have hkey : (if j = 4 then key_advance tmpkey else tmpkey)
        = key_advance^[done.length / 4] key := by
      rcases hinv with ⟨h0, hj, hk⟩ | ⟨hpos, hj, hk⟩
      · simp [h0, hj, hk]
      · by_cases h4 : j = 4
        · have hdiv : done.length / 4 = (done.length - 1) / 4 + 1 := by omega
          rw [if_pos h4, hdiv, Function.iterate_succ_apply', hk]
        · have hdiv : done.length / 4 = (done.length - 1) / 4 := by omega
          rw [if_neg h4, hdiv, hk]
    have hj' : (if j = 4 then 0 else j) + 1 = done.length % 4 + 1 := by
      rcases hinv with ⟨h0, hj, _⟩ | ⟨hpos, hj, _⟩
      · simp [h0, hj]
      · by_cases h4 : j = 4
        · rw [if_pos h4]; omega
        · rw [if_neg h4]; omega
    have hrec := ih (done ++ [b ^^^ content_key_byte key done.length]) (done.length % 4 + 1)
      (key_advance^[done.length / 4] key)
      (Or.inr ⟨by simp, by simp, by simp⟩)
    simp only [List.append_assoc, List.singleton_append, List.length_append,
      List.length_singleton] at hrec
    simp only [List.length_cons, file_record.extract.loop, hget, hset, hkey, hj',
      content_cipher_from]
    simpa [content_key_byte, key_byte] using hrec

theorem content_cipher_from_length (key : Nat) (s : List Nat) :
    ∀ i, (content_cipher_from key i s).length = s.length := by
  induction s with
  | nil => intro _; rfl
  | cons b bs ih => intro i; simp [content_cipher_from, ih]

theorem content_cipher_from_getElem? (key : Nat) (s : List Nat) :
    ∀ (i n : Nat), (content_cipher_from key i s)[n]?
      = s[n]?.map (fun b => b ^^^ content_key_byte key (i + n)) := by
  induction s with
  | nil => intro _ _; simp [content_cipher_from]
  | cons b bs ih =>
    intro i n
    cases n with
    | zero => simp [content_cipher_from]
    | succ n =>
      simp only [content_cipher_from, List.getElem?_cons_succ, ih]
      rw [show i + 1 + n = i + (n + 1) by omega]

/-- The content cipher undoes itself. -/
theorem content_cipher_from_involutive (key : Nat) (s : List Nat) :
    ∀ i, content_cipher_from key i (content_cipher_from key i s) = s := by
  induction s with
  | nil => intro _; rfl
  | cons b bs ih => intro i; simp [content_cipher_from, ih, Nat.xor_cancel_right]

/-! ## Signature check and version dispatch -/

theorem strncmp_zero (s1 s2 : List Nat) : strncmp s1 s2 0 = 0 := by
  simp [strncmp]

theorem strncmp_cons (a b : Nat) (s1 s2 : List Nat) (n : Nat) :
    strncmp (a :: s1) (b :: s2) (n + 1) = 0 ↔ a = b ∧ (a = 0 ∨ strncmp s1 s2 n = 0) := by
  rw [strncmp]
  simp only [List.headD_cons, List.tail_cons]
  by_cases hab : a = b
  · subst hab
    by_cases ha : a = 0
    · simp [ha]
    · simp [ha]
  · have : (a : Int) - (b : Int) ≠ 0 := by omega
    simp [hab, this]

theorem strncmp_RGSSAD (signature : List Nat) (h : signature.length = 7) :
    strncmp signature RGSSAD 7 = 0 ↔ signature = RGSSAD := by
  match signature, h with
  | [a, b, c, d, e, f, g], _ =>
    unfold RGSSAD
    rw [strncmp_cons, strncmp_cons, strncmp_cons, strncmp_cons, strncmp_cons, strncmp_cons,
      strncmp_cons, strncmp_zero]
    simp only [List.cons.injEq, and_true, or_true]
    constructor
    · rintro ⟨rfl, h⟩
      simp only [Nat.reduceEqDiff, false_or] at h
      obtain ⟨rfl, h⟩ := h
      simp only [Nat.reduceEqDiff, false_or] at h
      obtain ⟨rfl, h⟩ := h
      simp only [Nat.reduceEqDiff, false_or] at h
      obtain ⟨rfl, h⟩ := h
      simp only [Nat.reduceEqDiff, false_or] at h
      obtain ⟨rfl, h⟩ := h
      simp only [Nat.reduceEqDiff, false_or] at h
      obtain ⟨rfl, h⟩ := h
      simp only [Nat.reduceEqDiff, false_or] at h
      subst h
      simp
    · rintro ⟨rfl, rfl, rfl, rfl, rfl, rfl, rfl⟩
      simp

/-- The method `filereader::read` in one condition: the amount is within the limit of one
call and that many bytes are there. -/
theorem read_eq (input : filereader) (amount : Nat) :
    filereader.read input amount
      = if amount ≤ MAX_RW_COUNT ∧
            ((input.data.drop input.m_offset).take amount).length = amount then
          .ok ((input.data.drop input.m_offset).take amount,
            { input with m_offset := input.m_offset + amount })
        else .error .read := by
  unfold filereader.read
  simp only
  by_cases hmax : amount ≤ MAX_RW_COUNT
  · rw [Nat.min_eq_left hmax]
    by_cases hl : ((input.data.drop input.m_offset).take amount).length = amount
    · rw [if_neg (not_not.mpr hl), if_pos ⟨hmax, hl⟩]
    · rw [if_pos hl, if_neg (fun h => hl h.2)]
  · have hl : ((input.data.drop input.m_offset).take (min amount MAX_RW_COUNT)).length
        ≠ amount := by
      rw [List.length_take]
      omega
    rw [if_pos hl, if_neg (fun h => hmax h.1)]

theorem MAX_RW_COUNT_lt : MAX_RW_COUNT < 2 ^ 32 := by decide

/-- A read of more than `MAX_RW_COUNT` bytes throws: the one call of `::read` comes back
short. -/
theorem read_over_limit (input : filereader) (amount : Nat) (h : MAX_RW_COUNT < amount) :
    filereader.read input amount = .error .read := by
  rw [read_eq, if_neg (fun hc => absurd hc.1 (Nat.not_le.mpr h))]

theorem read_of_le (data : List Nat) (pos amount : Nat) (h : pos + amount ≤ data.length)
    (hmax : amount ≤ MAX_RW_COUNT) :
    filereader.read ⟨data, pos⟩ amount
      = .ok ((data.drop pos).take amount, ⟨data, pos + amount⟩) := by
  have hl : ((data.drop pos).take amount).length = amount := by
    rw [List.length_take, List.length_drop]; omega
  rw [read_eq, if_pos ⟨hmax, hl⟩]

theorem unpack_bad_signature (io : OutputIO) (data : List Nat) (hlen : 7 ≤ data.length)
    (hsig : data.take 7 ≠ RGSSAD) : unpack io data = ([], some .invalid_input_file) := by
  have hread := read_of_le data 0 7 (by omega) (by decide)
  have hl : (data.take 7).length = 7 := by rw [List.length_take]; omega
  have hne : strncmp (data.take 7) RGSSAD 7 ≠ 0 := fun h0 =>
    hsig ((strncmp_RGSSAD _ hl).mp h0)
  simp only [unpack, hread, List.drop_zero]
  rw [if_pos hne]

theorem unpack_good_signature (io : OutputIO) (version : Nat) (rest : List Nat) :
    unpack io (RGSSAD ++ version :: rest)
      = if version = 1 then unpack_v1 io ⟨RGSSAD ++ version :: rest, 8⟩
        else if version = 3 then unpack_v3 io ⟨RGSSAD ++ version :: rest, 8⟩
        else ([], some .unsupported_version) := by
  have hread := read_of_le (RGSSAD ++ version :: rest) 0 7 (by simp [RGSSAD]) (by decide)
  have htake : ((RGSSAD ++ version :: rest).drop 0).take 7 = RGSSAD := by
    simp [RGSSAD]
  have h0 : strncmp RGSSAD RGSSAD 7 = 0 := by decide
  have hread1 := read_of_le (RGSSAD ++ version :: rest) 7 1 (by simp [RGSSAD])
    (by decide)
  have htake1 : ((RGSSAD ++ version :: rest).drop 7).take 1 = [version] := by
    simp [RGSSAD]
  simp only [unpack, hread, htake, h0, ne_eq, not_true_eq_false, if_false, filereader.read_u8,
    Nat.zero_add, hread1, htake1]
  rfl

/-! ## Reading at a known place -/

theorem le32_le32_bytes (w : Nat) (h : w < 2 ^ 32) : le32 (le32_bytes w) = w := by
  simp only [le32, le32_bytes, List.getD_eq_getElem?_getD, List.getElem?_cons_zero,
    List.getElem?_cons_succ, Option.getD_some]
  omega

theorem le32_bytes_length (w : Nat) : (le32_bytes w).length = 4 := rfl

theorem read_drop (data : List Nat) (pos : Nat) (bytes rest : List Nat)
    (h : data.drop pos = bytes ++ rest) (hmax : bytes.length ≤ MAX_RW_COUNT) :
    filereader.read ⟨data, pos⟩ bytes.length = .ok (bytes, ⟨data, pos + bytes.length⟩) := by
  rw [read_eq]
  simp [h, hmax]

theorem drop_add_of_drop (data : List Nat) (pos : Nat) (bytes rest : List Nat)
    (h : data.drop pos = bytes ++ rest) : data.drop (pos + bytes.length) = rest := by
  rw [← List.drop_drop, h, List.drop_left]

theorem read_u32_drop (data : List Nat) (pos w : Nat) (rest : List Nat) (hw : w < 2 ^ 32)
    (h : data.drop pos = le32_bytes w ++ rest) :
    filereader.read_u32 ⟨data, pos⟩ = .ok (w, ⟨data, pos + 4⟩) := by
  have hr := read_drop data pos (le32_bytes w) rest h (by rw [le32_bytes_length]; decide)
  rw [le32_bytes_length] at hr
  simp only [filereader.read_u32, hr, le32_le32_bytes w hw]

theorem read_string_drop (data : List Nat) (pos : Nat) (bytes rest : List Nat)
    (h : data.drop pos = bytes ++ rest) (hmax : bytes.length ≤ MAX_RW_COUNT) :
    filereader.read_string ⟨data, pos⟩ bytes.length
      = .ok (bytes, ⟨data, pos + bytes.length⟩) :=
  read_drop data pos bytes rest h hmax

theorem xor_lt_u32 {a b : Nat} (ha : a < 2 ^ 32) (hb : b < 2 ^ 32) : a ^^^ b < 2 ^ 32 :=
  Nat.xor_lt_two_pow ha hb

theorem key_advance_lt (key : Nat) : key_advance key < 2 ^ 32 :=
  Nat.mod_lt _ (by norm_num)

theorem v3_directory_key_lt (h : Nat) : v3_directory_key h < 2 ^ 32 :=
  Nat.mod_lt _ (by norm_num)

/-! ## The directory pass of `unpack_v3` -/

theorem v3_encode_entries_length_le (K : Nat) (entries : List v3_entry) :
    16 * entries.length ≤ (v3_encode_entries K entries).length := by
  induction entries with
  | nil => simp [v3_encode_entries]
  | cons e es ih =>
    simp only [v3_encode_entries, v3_entry.encode, List.length_append, le32_bytes_length,
      List.length_cons]
    omega

theorem unpack_v3_loop_eq (data : List Nat) (K : Nat) (hK : K < 2 ^ 32) (post : List Nat)
    (entries : List v3_entry) :
    ∀ (pos fuel : Nat) (records : List file_record), entries.length < fuel →
      (∀ e ∈ entries, e.well_formed) →
      data.drop pos = v3_encode_entries K entries ++ (le32_bytes (0 ^^^ K) ++ post) →
      unpack_v3.loop fuel ⟨data, pos⟩ K records
        = .ok (records ++ entries.map (v3_entry.record K),
            ⟨data, pos + (v3_encode_entries K entries).length + 4⟩) := by
  induction entries with
  | nil =>
    intro pos fuel records hfuel _ hdrop
    obtain ⟨fuel, rfl⟩ : ∃ f, fuel = f + 1 := ⟨fuel - 1, by simp at hfuel; omega⟩
    simp only [v3_encode_entries, List.nil_append] at hdrop
    have h0 := read_u32_drop data pos (0 ^^^ K) post (xor_lt_u32 (by norm_num) hK) hdrop
    simp [unpack_v3.loop, h0, decrypt_v3_int, v3_encode_entries]
  | cons e es ih =>
    intro pos fuel records hfuel hwf hdrop
    obtain ⟨fuel, rfl⟩ : ∃ f, fuel = f + 1 := ⟨fuel - 1, by simp at hfuel; omega⟩
    obtain ⟨hne, ho, hs, hk, hn⟩ := hwf e (List.mem_cons_self _ _)
    simp only [v3_encode_entries, v3_entry.encode, List.append_assoc] at hdrop
    have h1 := read_u32_drop data pos _ _ (xor_lt_u32 ho hK) hdrop
    have d1 := drop_add_of_drop data pos _ _ hdrop
    rw [le32_bytes_length] at d1
    have h2 := read_u32_drop data (pos + 4) _ _ (xor_lt_u32 hs hK) d1
    have d2 := drop_add_of_drop data (pos + 4) _ _ d1
    rw [le32_bytes_length] at d2
    have h3 := read_u32_drop data (pos + 4 + 4) _ _ (xor_lt_u32 hk hK) d2
    have d3 := drop_add_of_drop data (pos + 4 + 4) _ _ d2
    rw [le32_bytes_length] at d3
    have h4 := read_u32_drop data (pos + 4 + 4 + 4) _ _
      (xor_lt_u32 (Nat.lt_of_le_of_lt hn MAX_RW_COUNT_lt) hK) d3
    have d4 := drop_add_of_drop data (pos + 4 + 4 + 4) _ _ d3
    rw [le32_bytes_length] at d4
    have h5 := read_string_drop data (pos + 4 + 4 + 4 + 4) _ _ d4 hn
    have d5 := drop_add_of_drop data (pos + 4 + 4 + 4 + 4) _ _ d4
    have hrec := ih (pos + 4 + 4 + 4 + 4 + e.raw_name.length) fuel
      (records ++ [e.record K]) (by simp at hfuel; omega)
      (fun x hx => hwf x (List.mem_cons_of_mem _ hx)) d5
    simp only [unpack_v3.loop, h1, h2, h3, h4, decrypt_v3_int, Nat.xor_cancel_right, hne,
      if_false, h5]
    rw [show (⟨e.offset, e.size, e.key, decrypt_v3_filename e.raw_name K⟩ : file_record)
      = e.record K from rfl, hrec]
    simp only [v3_encode_entries, v3_entry.encode, List.length_append, le32_bytes_length,
      List.map_cons, List.append_assoc, List.singleton_append]
    congr 3
    omega

theorem v3_directory_drop (h : Nat) (entries : List v3_entry) (rest : List Nat) :
    (v3_directory h entries ++ rest).drop 8
      = le32_bytes h ++ (v3_encode_entries (v3_directory_key h) entries
          ++ (le32_bytes (0 ^^^ v3_directory_key h) ++ rest)) := by
  simp [v3_directory, RGSSAD]

theorem v3_directory_length (h : Nat) (entries : List v3_entry) :
    (v3_directory h entries).length
      = 8 + 4 + (v3_encode_entries (v3_directory_key h) entries).length + 4 := by
  simp only [v3_directory, RGSSAD, List.length_append, List.length_cons, List.length_nil,
    le32_bytes_length]
  omega

theorem unpack_v3_records_eq (h : Nat) (entries : List v3_entry) (rest : List Nat)
    (hh : h < 2 ^ 32) (hwf : ∀ e ∈ entries, e.well_formed) :
    unpack_v3.records ⟨v3_directory h entries ++ rest, 8⟩
      = .ok (entries.map (v3_entry.record (v3_directory_key h)),
          ⟨v3_directory h entries ++ rest, (v3_directory h entries).length⟩) := by
  have hd := v3_directory_drop h entries rest
  have h1 := read_u32_drop _ 8 h _ hh hd
  have d1 := drop_add_of_drop _ 8 _ _ hd
  rw [le32_bytes_length] at d1
  have hlen := v3_encode_entries_length_le (v3_directory_key h) entries
  have hdl := v3_directory_length h entries
  have hfuel : entries.length < (v3_directory h entries ++ rest).length + 1 := by
    rw [List.length_append, hdl]; omega
  have hloop := unpack_v3_loop_eq (v3_directory h entries ++ rest) (v3_directory_key h)
    (v3_directory_key_lt h) rest entries (8 + 4) _ [] hfuel hwf d1
  simp only [unpack_v3.records, h1]
  rw [show (h * 9 + 3) % 2 ^ 32 = v3_directory_key h from rfl]
  simp only [filereader.size]
  rw [hloop, hdl]
  simp

/-! ## Creating directories and extracting a record -/

theorem find_some (s : List Nat) (c i e : Nat) (h : find s c i = some e) :
    i ≤ e ∧ e < s.length ∧ s.getD e 0 = c := by
  unfold find at h
  simp only at h
  split_ifs at h with hlt
  simp only [Option.some.injEq] at h
  subst h
  have hk : List.indexOf c (s.drop i) < (s.drop i).length := by
    rw [List.length_drop]; omega
  have hget := List.getElem_indexOf hk
  refine ⟨Nat.le_add_right _ _, hlt, ?_⟩
  rw [List.getD_eq_getElem?_getD, ← List.getElem?_drop, List.getElem?_eq_getElem hk, hget]
  rfl

theorem find_none_of_le (s : List Nat) (c i : Nat) (h : s.length ≤ i) : find s c i = none := by
  unfold find
  simp only
  rw [if_neg (by omega)]

theorem make_directory_loop_ok (io : OutputIO) (filename : List Nat)
    (hmk : ∀ n, n < filename.length → filename.getD n 0 = 0x2f →
      io.mkdir (c_str (filename.take n)) = 0 ∨ io.mkdir (c_str (filename.take n)) = EEXIST) :
    ∀ fuel i, filename.length ≤ fuel + i →
      ∃ trace, make_directory.loop io filename fuel i = (trace, none) ∧
        files_written trace = [] := by
  intro fuel
  induction fuel with
  | zero =>
    intro i hi
    refine ⟨[], ?_, rfl⟩
    simp [make_directory.loop, find_none_of_le filename 0x2f i (by omega)]
  | succ fuel ih =>
    intro i hi
    cases hf : find filename 0x2f i with
    | none => exact ⟨[], by simp [make_directory.loop, hf], rfl⟩
    | some e =>
      obtain ⟨hie, hel, heq⟩ := find_some filename 0x2f i e hf
      obtain ⟨trace, ht, hw⟩ := ih (e + 1) (by omega)
      have hok := hmk e hel heq
      have hnot : ¬ (io.mkdir (c_str (filename.take e)) ≠ 0 ∧
          io.mkdir (c_str (filename.take e)) ≠ EEXIST) := by
        rintro ⟨h0, h1⟩
        rcases hok with h | h
        · exact h0 h
        · exact h1 h
      refine ⟨.mkdir (c_str (filename.take e)) :: trace, ?_, ?_⟩
      · simp only [make_directory.loop, hf, hnot, if_false, ht]
      · simpa [files_written, Effect.written] using hw

theorem extract_ok (io : OutputIO) (r : file_record) (input : filereader) (content : List Nat)
    (hoff : r.m_offset < 2 ^ 63)
    (hread : (input.data.drop r.m_offset).take r.m_size
      = content_cipher_from r.m_key 0 content)
    (hsize : content.length = r.m_size) (hmax : r.m_size ≤ MAX_RW_COUNT)
    (hacc : io.accepts r.m_name content) :
    ∃ trace, r.extract io input = (trace, .ok ⟨input.data, r.m_offset + r.m_size⟩) ∧
      files_written trace = [(c_str r.m_name, content)] := by
  obtain ⟨hmk, hcr, hwr⟩ := hacc
  obtain ⟨trace, ht, hw⟩ := make_directory_loop_ok io r.m_name hmk r.m_name.length 0 (by omega)
  have hseek : input.seek r.m_offset = .ok ⟨input.data, r.m_offset⟩ := by
    unfold filereader.seek
    rw [if_neg (Nat.not_le.mpr hoff)]
  have hlen : (content_cipher_from r.m_key 0 content).length = r.m_size := by
    rw [content_cipher_from_length, hsize]
  have hrd : filereader.read ⟨input.data, r.m_offset⟩ r.m_size
      = .ok (content_cipher_from r.m_key 0 content, ⟨input.data, r.m_offset + r.m_size⟩) := by
    rw [read_eq]
    simp [hread, hlen, hmax]
  have hloop := extract_loop_eq r.m_key (content_cipher_from r.m_key 0 content) [] 0 r.m_key
    (Or.inl ⟨rfl, rfl, rfl⟩)
  simp only [List.nil_append, List.length_nil, hlen, content_cipher_from_involutive] at hloop
  refine ⟨trace ++ [.create (c_str r.m_name), .write (c_str r.m_name) content], ?_, ?_⟩
  · have hmd : make_directory io r.m_name = (trace, none) := ht
    simp only [file_record.extract, hseek, hrd, hloop, hmd, hcr, hwr, ne_eq, not_true_eq_false,
      if_false, Bool.true_eq_false]
  · simp [files_written, Effect.written, List.filterMap_append] at hw ⊢
    exact hw

theorem extract_records_ok (io : OutputIO) (data : List Nat)
    (pairs : List (file_record × List Nat))
    (h : ∀ p ∈ pairs, p.1.m_offset < 2 ^ 63 ∧
      (data.drop p.1.m_offset).take p.1.m_size = content_cipher_from p.1.m_key 0 p.2 ∧
      p.2.length = p.1.m_size ∧ p.1.m_size ≤ MAX_RW_COUNT ∧ io.accepts p.1.m_name p.2) :
    ∀ pos, ∃ trace, extract_records io (pairs.map Prod.fst) ⟨data, pos⟩ = (trace, none) ∧
      files_written trace = pairs.map (fun p => (c_str p.1.m_name, p.2)) := by
  induction pairs with
  | nil => intro pos; exact ⟨[], rfl, rfl⟩
  | cons p ps ih =>
    intro pos
    obtain ⟨hoff, hread, hsize, hmax, hacc⟩ := h p (List.mem_cons_self _ _)
    obtain ⟨t1, he, hw1⟩ := extract_ok io p.1 ⟨data, pos⟩ p.2 hoff hread hsize hmax hacc
    obtain ⟨t2, hr, hw2⟩ := ih (fun q hq => h q (List.mem_cons_of_mem _ hq))
      (p.1.m_offset + p.1.m_size)
    refine ⟨t1 ++ t2, ?_, ?_⟩
    · simp only [List.map_cons, extract_records, he, hr]
    · simp only [files_written, List.filterMap_append, List.map_cons] at hw1 hw2 ⊢
      rw [hw1, hw2]
      rfl

/-! ## Names through the v3 filename cipher -/

theorem v3_encrypt_name_length (K : Nat) (name : List Nat) :
    ∀ i, (v3_encrypt_name K i name).length = name.length := by
  induction name with
  | nil => intro _; rfl
  | cons b bs ih => intro i; simp [v3_encrypt_name, ih]

theorem v3_name_byte_encrypted (K i b : Nat) (hb : b < 256)
    (hsep : b = 0x5c → key_byte K i < 128) :
    v3_name_byte K i (b ^^^ key_byte K i) = normalize_separator b := by
  have hk := key_byte_lt K i
  have hc : b ^^^ key_byte K i < 256 := xor_lt_256 hb hk
  by_cases hlow : b ^^^ key_byte K i < 128
  · rw [v3_name_byte_low K i _ hlow, Nat.xor_cancel_right]
  · rw [v3_name_byte_high K i _ (by omega) hc, Nat.xor_cancel_right]
    have hne : b ≠ 0x5c := by
      intro h5c
      have hk7 : key_byte K i < 2 ^ 7 := hsep h5c
      have : b ^^^ key_byte K i < 2 ^ 7 := Nat.xor_lt_two_pow (by rw [h5c]; norm_num) hk7
      omega
    simp [normalize_separator, hne]

theorem v3_name_from_encrypt (K : Nat) (name : List Nat) :
    ∀ i, (∀ b ∈ name, b < 256) →
      (∀ n, n < name.length → name.getD n 0 = 0x5c → key_byte K (i + n) < 128) →
      v3_name_from K i (v3_encrypt_name K i name) = name.map normalize_separator := by
  induction name with
  | nil => intro _ _ _; rfl
  | cons b bs ih =>
    intro i hb hsep
    have h0 := v3_name_byte_encrypted K i b (hb b (List.mem_cons_self _ _))
      (fun h => by simpa using hsep 0 (by simp) (by simpa using h))
    have hrec := ih (i + 1) (fun c hc => hb c (List.mem_cons_of_mem _ hc))
      (fun n hn h => by
        have := hsep (n + 1) (by simpa using hn) (by simpa using h)
        rwa [show i + (n + 1) = i + 1 + n by omega] at this)
    simp only [v3_encrypt_name, v3_name_from, h0, hrec, List.map_cons]

theorem v3_file_record (K : Nat) (f : v3_file) (hwf : f.well_formed)
    (hsep : f.separators_low K) :
    (f.entry K).record K
      = ⟨f.offset, f.content.length, f.key, f.name.map normalize_separator⟩ := by
  obtain ⟨_, _, _, _, hn, hb⟩ := hwf
  have hlen : (v3_encrypt_name K 0 f.name).length < 2 ^ 32 := by
    rw [v3_encrypt_name_length]; exact Nat.lt_of_le_of_lt hn MAX_RW_COUNT_lt
  have hname := v3_name_from_encrypt K f.name 0 hb (fun n hn h => by
    rw [Nat.zero_add]; exact hsep n hn h)
  simp only [v3_entry.record, v3_file.entry, decrypt_v3_filename_eq _ K hlen, hname]

theorem v3_file_entry_well_formed (K : Nat) (f : v3_file) (hwf : f.well_formed) :
    (f.entry K).well_formed := by
  obtain ⟨h1, h2, h3, h4, h5, _⟩ := hwf
  refine ⟨h1, h2, Nat.lt_of_le_of_lt h3 MAX_RW_COUNT_lt, h4, ?_⟩
  simp only [v3_file.entry, v3_encrypt_name_length]
  exact h5

/-! ## The directory pass of `unpack_v1` -/

theorem iterate_key_advance_lt (n key : Nat) (h : key < 2 ^ 32) :
    key_advance^[n] key < 2 ^ 32 := by
  cases n with
  | zero => simpa using h
  | succ n => rw [Function.iterate_succ_apply']; exact key_advance_lt _

theorem v1_encrypt_name_length (name : List Nat) :
    ∀ key, (v1_encrypt_name name key).length = name.length := by
  induction name with
  | nil => intro _; rfl
  | cons b bs ih => intro key; simp [v1_encrypt_name, ih]

theorem v1_encrypt_name_lt (name : List Nat) :
    ∀ key, (∀ b ∈ name, b < 256) → ∀ c ∈ v1_encrypt_name name key, c < 256 := by
  induction name with
  | nil => intro _ _ c hc; simp [v1_encrypt_name] at hc
  | cons b bs ih =>
    intro key hb c hc
    simp only [v1_encrypt_name, List.mem_cons] at hc
    rcases hc with rfl | hc
    · exact xor_lt_256 (hb b (List.mem_cons_self _ _)) (and_ff_lt key)
    · exact ih _ (fun x hx => hb x (List.mem_cons_of_mem _ hx)) c hc

theorem v1_name_plain_encrypt (name : List Nat) :
    ∀ key, v1_name_plain (v1_encrypt_name name key) key = name.map normalize_separator := by
  induction name with
  | nil => intro _; rfl
  | cons b bs ih =>
    intro key
    simp only [v1_encrypt_name, v1_name_plain, Nat.xor_cancel_right, ih, List.map_cons]

theorem decrypt_v1_filename_encrypt (name : List Nat) (key : Nat) (hlen : name.length < 2 ^ 32)
    (hb : ∀ b ∈ name, b < 256) :
    decrypt_v1_filename (v1_encrypt_name name key) key
      = (name.map normalize_separator, key_advance^[name.length] key) := by
  rw [decrypt_v1_filename_eq _ key (by rw [v1_encrypt_name_length]; exact hlen)
    (v1_encrypt_name_lt name key hb), v1_name_plain_encrypt, v1_encrypt_name_length]

theorem v1_encode_length_le (entries : List v1_entry) :
    ∀ key, 8 * entries.length ≤ (v1_encode entries key).length := by
  induction entries with
  | nil => intro _; simp [v1_encode]
  | cons e es ih =>
    intro key
    have := ih (v1_content_key e key)
    simp only [v1_encode, List.length_append, le32_bytes_length, List.length_cons]
    omega

theorem unpack_v1_loop_eq (data : List Nat) (hL : data.length < 2 ^ 32)
    (entries : List v1_entry) :
    ∀ (key pos fuel : Nat) (records : List file_record), entries.length ≤ fuel →
      (∀ e ∈ entries, ∀ b ∈ e.name, b < 256) →
      (∀ e ∈ entries, e.name.length ≤ MAX_RW_COUNT) → key < 2 ^ 32 → pos ≤ data.length →
      data.drop pos = v1_encode entries key →
      unpack_v1.loop fuel ⟨data, pos⟩ key records
        = .ok (records ++ v1_records entries key pos, ⟨data, data.length⟩) := by
  induction entries with
  | nil =>
    intro key pos fuel records _ _ _ _ hpos hdrop
    have hlen : data.length ≤ pos := by
      have := congrArg List.length hdrop
      simp [v1_encode] at this
      omega
    have hp : pos = data.length := by omega
    subst hp
    cases fuel <;>
      simp [unpack_v1.loop, filereader.offset, filereader.size, v1_records]
  | cons e es ih =>
    intro key pos fuel records hfuel hb hmax hkey hpos hdrop
    obtain ⟨fuel, rfl⟩ : ∃ f, fuel = f + 1 := ⟨fuel - 1, by simp at hfuel; omega⟩
    have hdl := congrArg List.length hdrop
    simp only [List.length_drop, v1_encode, List.length_append, le32_bytes_length,
      v1_encrypt_name_length, content_cipher_from_length] at hdl
    have hnl : e.name.length < 2 ^ 32 := by omega
    have hcl : e.content.length < 2 ^ 32 := by omega
    have hk1 : key_advance key < 2 ^ 32 := key_advance_lt key
    have hk2 : key_advance^[e.name.length] (key_advance key) < 2 ^ 32 :=
      iterate_key_advance_lt _ _ hk1
    simp only [v1_encode] at hdrop
    have h1 := read_u32_drop data pos _ _ (xor_lt_u32 hnl hkey) hdrop
    have d1 := drop_add_of_drop data pos _ _ hdrop
    rw [le32_bytes_length] at d1
    have h2 := read_string_drop data (pos + 4) _ _ d1
      (by rw [v1_encrypt_name_length]; exact hmax e (List.mem_cons_self _ _))
    have d2 := drop_add_of_drop data (pos + 4) _ _ d1
    rw [v1_encrypt_name_length] at h2 d2
    have h3 := read_u32_drop data (pos + 4 + e.name.length) _ _ (xor_lt_u32 hcl hk2) d2
    have d3 := drop_add_of_drop data (pos + 4 + e.name.length) _ _ d2
    rw [le32_bytes_length] at d3
    have d4 := drop_add_of_drop data (pos + 4 + e.name.length + 4) _ _ d3
    rw [content_cipher_from_length] at d4
    have hcond : pos < data.length := by omega
    have hseek : filereader.seek ⟨data, pos + 4 + e.name.length + 4⟩
        (pos + 4 + e.name.length + 4 + e.content.length)
        = .ok ⟨data, pos + 4 + e.name.length + 4 + e.content.length⟩ := by
      unfold filereader.seek
      rw [if_neg (by omega)]
    have hmod64 : (pos + 4 + e.name.length + 4 + e.content.length) % 2 ^ 64
        = pos + 4 + e.name.length + 4 + e.content.length := Nat.mod_eq_of_lt (by omega)
    have hmod32 : (pos + 4 + e.name.length + 4) % 2 ^ 32 = pos + 4 + e.name.length + 4 :=
      Nat.mod_eq_of_lt (by omega)
    have hname := decrypt_v1_filename_encrypt e.name (key_advance key) hnl
      (hb e (List.mem_cons_self _ _))
    have hrec := ih (v1_content_key e key)
      (pos + 4 + e.name.length + 4 + e.content.length) fuel
      (records ++ [⟨pos + 4 + e.name.length + 4, e.content.length, v1_content_key e key,
        e.name.map normalize_separator⟩])
      (by simp at hfuel; omega) (fun x hx => hb x (List.mem_cons_of_mem _ hx))
      (fun x hx => hmax x (List.mem_cons_of_mem _ hx)) (key_advance_lt _) (by omega) d4
    simp only [unpack_v1.loop, filereader.offset, filereader.size, hcond, if_true, h1,
      decrypt_v1_int, Nat.xor_cancel_right, h2, hname, h3, hmod64, hseek, hmod32]
    rw [show key_advance (key_advance^[e.name.length] (key_advance key))
      = v1_content_key e key from rfl, hrec]
    simp [v1_records]

theorem v1_archive_drop (entries : List v1_entry) :
    (v1_archive entries).drop 8 = v1_encode entries 0xdeadcafe := by
  simp [v1_archive, RGSSAD]

theorem v1_extract_ok (io : OutputIO) (data : List Nat) (hL : data.length < 2 ^ 32)
    (entries : List v1_entry) :
    ∀ (key pos p0 : Nat), data.drop pos = v1_encode entries key → pos ≤ data.length →
      (∀ e ∈ entries, e.content.length ≤ MAX_RW_COUNT) →
      (∀ e ∈ entries, io.accepts (e.name.map normalize_separator) e.content) →
      ∃ trace, extract_records io (v1_records entries key pos) ⟨data, p0⟩ = (trace, none) ∧
        files_written trace
          = entries.map (fun e => (c_str (e.name.map normalize_separator), e.content)) := by
  induction entries with
  | nil => intro _ _ _ _ _ _ _; exact ⟨[], rfl, rfl⟩
  | cons e es ih =>
    intro key pos p0 hdrop hpos hmax hio
    have hdl := congrArg List.length hdrop
    simp only [List.length_drop, v1_encode, List.length_append, le32_bytes_length,
      v1_encrypt_name_length, content_cipher_from_length] at hdl
    simp only [v1_encode] at hdrop
    have d1 := drop_add_of_drop data pos _ _ hdrop
    rw [le32_bytes_length] at d1
    have d2 := drop_add_of_drop data (pos + 4) _ _ d1
    rw [v1_encrypt_name_length] at d2
    have d3 := drop_add_of_drop data (pos + 4 + e.name.length) _ _ d2
    rw [le32_bytes_length] at d3
    have d4 := drop_add_of_drop data (pos + 4 + e.name.length + 4) _ _ d3
    rw [content_cipher_from_length] at d4
    have htake : (data.drop (pos + 4 + e.name.length + 4)).take e.content.length
        = content_cipher_from (v1_content_key e key) 0 e.content := by
      rw [d3]
      exact List.take_left' (content_cipher_from_length _ _ _)
    obtain ⟨t1, he, hw1⟩ := extract_ok io
      ⟨pos + 4 + e.name.length + 4, e.content.length, v1_content_key e key,
        e.name.map normalize_separator⟩ ⟨data, p0⟩ e.content
      (by simp only; omega) htake rfl (hmax e (List.mem_cons_self _ _))
      (hio e (List.mem_cons_self _ _))
    obtain ⟨t2, hr, hw2⟩ := ih (v1_content_key e key)
      (pos + 4 + e.name.length + 4 + e.content.length)
      (pos + 4 + e.name.length + 4 + e.content.length) d4 (by omega)
      (fun x hx => hmax x (List.mem_cons_of_mem _ hx))
      (fun x hx => hio x (List.mem_cons_of_mem _ hx))
    refine ⟨t1 ++ t2, ?_, ?_⟩
    · simp only [v1_records, extract_records, he, hr]
    · simp only [files_written, List.filterMap_append, List.map_cons] at hw1 hw2 ⊢
      rw [hw1, hw2]
      rfl

/-- A name without NUL byte is its own C string. -/
theorem c_str_eq_self (s : List Nat) (h : ∀ c ∈ s, c ≠ 0) : c_str s = s := by
  unfold c_str
  rw [List.takeWhile_eq_self_iff]
  intro c hc
  simpa using h c hc

theorem normalize_separator_ne (c : Nat) : normalize_separator c ≠ 0x5c := by
  unfold normalize_separator
  split_ifs with h
  · norm_num
  · exact h

theorem v1_name_plain_no_backslash (s : List Nat) :
    ∀ key, ∀ c ∈ v1_name_plain s key, c ≠ 0x5c := by
  induction s with
  | nil => intro _ c hc; simp [v1_name_plain] at hc
  | cons b bs ih =>
    intro key c hc
    simp only [v1_name_plain, List.mem_cons] at hc
    rcases hc with rfl | hc
    · exact normalize_separator_ne _
    · exact ih _ c hc

/-- The string returned by `decrypt_v1_filename` holds no backslash. -/
theorem decrypt_v1_filename_no_backslash (s : List Nat) (key : Nat) (hlen : s.length < 2 ^ 32)
    (hb : ∀ b ∈ s, b < 256) : ∀ c ∈ (decrypt_v1_filename s key).1, c ≠ 0x5c := by
  rw [decrypt_v1_filename_eq s key hlen hb]
  exact v1_name_plain_no_backslash s key

/-! ## The iteration bounds of the model are never used up -/

theorem read_ok_inv (data : List Nat) (pos amount : Nat) (bytes : List Nat) (r : filereader)
    (h : filereader.read ⟨data, pos⟩ amount = .ok (bytes, r)) :
    r = ⟨data, pos + amount⟩ ∧ bytes = (data.drop pos).take amount ∧
      bytes.length = amount ∧ (0 < amount → pos + amount ≤ data.length) := by
  rw [read_eq] at h
  split_ifs at h with hl
  simp only [Except.ok.injEq, Prod.mk.injEq] at h
  obtain ⟨rfl, rfl⟩ := h
  have hl' : ((data.drop pos).take amount).length = amount := hl.2
  refine ⟨rfl, rfl, hl', ?_⟩
  intro _
  rw [List.length_take, List.length_drop] at hl'
  omega

theorem read_error_inv (input : filereader) (amount : Nat) (e : Error)
    (h : filereader.read input amount = .error e) : e = .read := by
  rw [read_eq] at h
  split_ifs at h
  simp only [Except.error.injEq] at h
  exact h.symm

theorem read_u32_error_inv (input : filereader) (e : Error)
    (h : filereader.read_u32 input = .error e) : e = .read := by
  unfold filereader.read_u32 at h
  cases hr : filereader.read input 4 with
  | error e' =>
    rw [hr] at h
    simp only [Except.error.injEq] at h
    rw [← h]
    exact read_error_inv input 4 e' hr
  | ok res => rw [hr] at h; simp at h

theorem read_u32_ok_inv (data : List Nat) (pos w : Nat) (r : filereader)
    (h : filereader.read_u32 ⟨data, pos⟩ = .ok (w, r)) :
    r = ⟨data, pos + 4⟩ ∧ w = le32 ((data.drop pos).take 4) ∧ pos + 4 ≤ data.length := by
  unfold filereader.read_u32 at h
  cases hr : filereader.read ⟨data, pos⟩ 4 with
  | error e => rw [hr] at h; simp at h
  | ok res =>
    obtain ⟨bytes, r'⟩ := res
    rw [hr] at h
    simp only [Except.ok.injEq, Prod.mk.injEq] at h
    obtain ⟨rfl, rfl⟩ := h
    obtain ⟨h1, h2, _, h4⟩ := read_ok_inv data pos 4 bytes r' hr
    exact ⟨h1, by rw [h2], h4 (by norm_num)⟩

theorem le32_lt (bytes : List Nat) (hb : ∀ b ∈ bytes, b < 256) : le32 bytes < 2 ^ 32 := by
  have hget : ∀ i, bytes.getD i 0 < 256 := by
    intro i
    rw [List.getD_eq_getElem?_getD]
    cases hi : bytes[i]? with
    | none => simp
    | some b => exact hb b (List.getElem?_mem hi)
  have h0 := hget 0
  have h1 := hget 1
  have h2 := hget 2
  have h3 := hget 3
  unfold le32
  omega

theorem make_directory_loop_no_fuel (io : OutputIO) (filename : List Nat) :
    ∀ fuel i, filename.length ≤ fuel + i →
      (make_directory.loop io filename fuel i).2 ≠ some .fuel := by
  intro fuel
  induction fuel with
  | zero =>
    intro i hi
    simp [make_directory.loop, find_none_of_le filename 0x2f i (by omega)]
  | succ fuel ih =>
    intro i hi
    cases hf : find filename 0x2f i with
    | none => simp [make_directory.loop, hf]
    | some e =>
      obtain ⟨hie, _, _⟩ := find_some filename 0x2f i e hf
      have hrec := ih (e + 1) (by omega)
      simp only [make_directory.loop, hf]
      split_ifs
      · simp
      · exact hrec

/-- The bound `filename.length` of the loop of `make_directory` is never used up. -/
theorem make_directory_no_fuel (io : OutputIO) (filename : List Nat) :
    (make_directory io filename).2 ≠ some .fuel :=
  make_directory_loop_no_fuel io filename filename.length 0 (by omega)

theorem unpack_v3_loop_no_fuel (data : List Nat) :
    ∀ (fuel pos key : Nat) (records : List file_record), pos ≤ data.length →
      data.length < pos + 16 * fuel →
      unpack_v3.loop fuel ⟨data, pos⟩ key records ≠ .error .fuel := by
  intro fuel
  induction fuel with
  | zero => intro pos key records h1 h2; omega
  | succ fuel ih =>
    intro pos key records hpos hlen
    rw [unpack_v3.loop]
    cases h1 : filereader.read_u32 ⟨data, pos⟩ with
    | error e =>
      have : e = .read := read_u32_error_inv _ _ h1
      simp [this]
    | ok res1 =>
      obtain ⟨w1, r1⟩ := res1
      obtain ⟨rfl, -, hp1⟩ := read_u32_ok_inv data pos w1 r1 h1
      simp only
      split_ifs with hz
      · simp
      · cases h2 : filereader.read_u32 ⟨data, pos + 4⟩ with
        | error e =>
          have : e = .read := read_u32_error_inv _ _ h2
          simp [this]
        | ok res2 =>
          obtain ⟨w2, r2⟩ := res2
          obtain ⟨rfl, -, hp2⟩ := read_u32_ok_inv data (pos + 4) w2 r2 h2
          simp only
          cases h3 : filereader.read_u32 ⟨data, pos + 4 + 4⟩ with
          | error e =>
            have : e = .read := read_u32_error_inv _ _ h3
            simp [this]
          | ok res3 =>
            obtain ⟨w3, r3⟩ := res3
            obtain ⟨rfl, -, hp3⟩ := read_u32_ok_inv data (pos + 4 + 4) w3 r3 h3
            simp only
            cases h4 : filereader.read_u32 ⟨data, pos + 4 + 4 + 4⟩ with
            | error e =>
              have : e = .read := read_u32_error_inv _ _ h4
              simp [this]
            | ok res4 =>
              obtain ⟨w4, r4⟩ := res4
              obtain ⟨rfl, -, hp4⟩ := read_u32_ok_inv data (pos + 4 + 4 + 4) w4 r4 h4
              simp only
              cases h5 : filereader.read_string ⟨data, pos + 4 + 4 + 4 + 4⟩
                  (decrypt_v3_int w4 key) with
              | error e =>
                have : e = .read := read_error_inv _ _ _ h5
                simp [this]
              | ok res5 =>
                obtain ⟨raw, r5⟩ := res5
                obtain ⟨rfl, -, -, hp5⟩ := read_ok_inv data _ _ raw r5 h5
                simp only
                apply ih
                · by_cases hn : 0 < decrypt_v3_int w4 key
                  · exact hp5 hn
                  · omega
                · omega

/-- The bound `input.size + 1` of the loop of `unpack_v3` is never used up. -/
theorem unpack_v3_records_no_fuel (input : filereader) :
    unpack_v3.records input ≠ .error .fuel := by
  obtain ⟨data, pos⟩ := input
  unfold unpack_v3.records
  cases h1 : filereader.read_u32 ⟨data, pos⟩ with
  | error e =>
    have : e = .read := read_u32_error_inv _ _ h1
    simp [this]
  | ok res1 =>
    obtain ⟨w1, r1⟩ := res1
    obtain ⟨rfl, -, hp1⟩ := read_u32_ok_inv data pos w1 r1 h1
    simp only [filereader.size]
    exact unpack_v3_loop_no_fuel data _ _ _ _ hp1 (by omega)

theorem decrypt_v1_filename_loop_key_lt (input : List Nat) :
    ∀ (left i key : Nat) (output : List Nat), key < 2 ^ 32 →
      (decrypt_v1_filename.loop input left i key output).2 < 2 ^ 32 := by
  intro left
  induction left with
  | zero => intro i key output h; simpa [decrypt_v1_filename.loop] using h
  | succ left ih =>
    intro i key output _
    simp only [decrypt_v1_filename.loop]
    split_ifs
    · exact ih _ _ _ (key_advance_lt key)
    · exact ih _ _ _ (key_advance_lt key)

theorem unpack_v1_loop_no_fuel (data : List Nat) (hb : ∀ b ∈ data, b < 256)
    (hlen : data.length < 2 ^ 63) :
    ∀ (fuel pos key : Nat) (records : List file_record), key < 2 ^ 32 →
      data.length ≤ pos + 8 * fuel →
      unpack_v1.loop fuel ⟨data, pos⟩ key records ≠ .error .fuel := by
  have hword : ∀ p, le32 ((data.drop p).take 4) < 2 ^ 32 := fun p =>
    le32_lt _ (fun b hm => hb b (List.mem_of_mem_drop (List.mem_of_mem_take hm)))
  intro fuel
  induction fuel with
  | zero =>
    intro pos key records _ h
    simp only [unpack_v1.loop, filereader.offset, filereader.size]
    rw [if_neg (by omega)]
    simp
  | succ fuel ih =>
    intro pos key records hkey hfuel
    rw [unpack_v1.loop]
    simp only [filereader.offset, filereader.size]
    split_ifs with hcond
    · cases h1 : filereader.read_u32 ⟨data, pos⟩ with
      | error e =>
        have : e = .read := read_u32_error_inv _ _ h1
        simp [this]
      | ok res1 =>
        obtain ⟨w1, r1⟩ := res1
        obtain ⟨rfl, -, hp1⟩ := read_u32_ok_inv data pos w1 r1 h1
        simp only [decrypt_v1_int]
        cases h2 : filereader.read_string ⟨data, pos + 4⟩ (w1 ^^^ key) with
        | error e =>
          have : e = .read := read_error_inv _ _ _ h2
          simp [this]
        | ok res2 =>
          obtain ⟨raw, r2⟩ := res2
          obtain ⟨rfl, -, -, -⟩ := read_ok_inv data _ _ raw r2 h2
          simp only
          cases h3 : filereader.read_u32 ⟨data, pos + 4 + (w1 ^^^ key)⟩ with
          | error e =>
            have : e = .read := read_u32_error_inv _ _ h3
            simp [this]
          | ok res3 =>
            obtain ⟨w3, r3⟩ := res3
            obtain ⟨rfl, hw3, hp3⟩ := read_u32_ok_inv data _ w3 r3 h3
            have hk2 : (decrypt_v1_filename raw (key_advance key)).2 < 2 ^ 32 :=
              decrypt_v1_filename_loop_key_lt raw _ _ _ _ (key_advance_lt key)
            have hsize : w3 ^^^ (decrypt_v1_filename raw (key_advance key)).2 < 2 ^ 32 :=
              xor_lt_u32 (by rw [hw3]; exact hword _) hk2
            have hmod : (pos + 4 + (w1 ^^^ key) + 4
                + (w3 ^^^ (decrypt_v1_filename raw (key_advance key)).2)) % 2 ^ 64
                = pos + 4 + (w1 ^^^ key) + 4
                  + (w3 ^^^ (decrypt_v1_filename raw (key_advance key)).2) :=
              Nat.mod_eq_of_lt (by omega)
            simp only [hmod]
            unfold filereader.seek
            split_ifs
            · simp
            · simp only
              apply ih
              · exact key_advance_lt _
              · omega
    · simp

/-- The bound `input.size` of the loop of `unpack_v1` is never used up, for an archive of
bytes that is shorter than `2 ^ 63` bytes (its length is an `off_t`). -/
theorem unpack_v1_no_fuel (input : filereader) (hb : ∀ b ∈ input.data, b < 256)
    (hlen : input.data.length < 2 ^ 63) :
    unpack_v1.loop input.size input 0xdeadcafe [] ≠ .error .fuel := by
  obtain ⟨data, pos⟩ := input
  exact unpack_v1_loop_no_fuel data hb hlen _ _ _ _ (by norm_num)
    (by simp only [filereader.size]; omega)

/-! ## The claims -/

/-- Claim C1, amended.  A v3 archive that starts with signature, version byte 3, header word
`h`, one record per file (the four words XORed with `K = (h * 9 + 3) mod 2 ^ 32`, the name
XORed with the bytes of `K` in turn) and a word that decrypts to offset `0`, and that holds
at each stored offset the content encrypted under the stored key, is unpacked without error
and one file is written per entry, in directory order, with exactly the plain content, at
the C string of the name with every backslash replaced by `'/'` (the name up to its first
NUL byte), provided no name and no content is longer than the `MAX_RW_COUNT` bytes one call
of `::read` delivers, no backslash of a name stands at an index whose key byte is `0x80` or
more, and the output side accepts every call. -/
theorem v3_round_trip (io : OutputIO) (h : Nat) (files : List v3_file) (data rest : List Nat)
    (hh : h < 2 ^ 32)
    (hdata : data
      = v3_directory h (files.map (v3_file.entry (v3_directory_key h))) ++ rest)
    (hwf : ∀ f ∈ files, f.well_formed)
    (hcontent : ∀ f ∈ files,
      (data.drop f.offset).take f.content.length = content_cipher_from f.key 0 f.content)
    (hsep : ∀ f ∈ files, f.separators_low (v3_directory_key h))
    (hio : ∀ f ∈ files, io.accepts (f.name.map normalize_separator) f.content) :
    (unpack io data).2 = none ∧
      files_written (unpack io data).1
        = files.map (fun f => (c_str (f.name.map normalize_separator), f.content)) := by
  have hrecs := unpack_v3_records_eq h (files.map (v3_file.entry (v3_directory_key h))) rest hh
    (by
      intro e he
      obtain ⟨f, hf, rfl⟩ := List.mem_map.mp he
      exact v3_file_entry_well_formed _ f (hwf f hf))
  rw [← hdata] at hrecs
  have hmap : (files.map (v3_file.entry (v3_directory_key h))).map
      (v3_entry.record (v3_directory_key h))
      = (files.map (fun f => ((⟨f.offset, f.content.length, f.key,
          f.name.map normalize_separator⟩ : file_record), f.content))).map Prod.fst := by
    rw [List.map_map, List.map_map]
    apply List.map_congr_left
    intro f hf
    exact v3_file_record _ f (hwf f hf) (hsep f hf)
  obtain ⟨trace, ht, hw⟩ := extract_records_ok io data
    (files.map (fun f => ((⟨f.offset, f.content.length, f.key,
      f.name.map normalize_separator⟩ : file_record), f.content)))
    (by
      intro p hp
      obtain ⟨f, hf, rfl⟩ := List.mem_map.mp hp
      obtain ⟨_, ho, hc, _, _, _⟩ := hwf f hf
      exact ⟨by simp only; omega, hcontent f hf, rfl, hc, hio f hf⟩)
    (v3_directory h (files.map (v3_file.entry (v3_directory_key h)))).length
  have hunpack : unpack io data = (trace, none) := by
    have hshape : data = RGSSAD ++ 3 :: (le32_bytes h ++
        (v3_encode_entries (v3_directory_key h)
          (files.map (v3_file.entry (v3_directory_key h)))
          ++ le32_bytes (0 ^^^ v3_directory_key h)) ++ rest) := by
      rw [hdata]; simp [v3_directory]
    have hgood := unpack_good_signature io 3 (le32_bytes h ++
        (v3_encode_entries (v3_directory_key h)
          (files.map (v3_file.entry (v3_directory_key h)))
          ++ le32_bytes (0 ^^^ v3_directory_key h)) ++ rest)
    rw [← hshape] at hgood
    rw [hgood]
    simp only [Nat.reduceEqDiff, if_false, if_true, unpack_v3, hrecs, hmap, ht]
  rw [hunpack]
  refine ⟨rfl, ?_⟩
  simp only [hw, List.map_map]
  rfl

/-- Witness of `v3_round_trip`: header value `100`, the file `a\b` with content `AB`. -/
theorem v3_round_trip_witness :
    (100 < 2 ^ 32 ∧
      example_v3_archive
        = v3_directory 100 ([example_v3_file].map (v3_file.entry (v3_directory_key 100)))
          ++ content_cipher_from 7 0 [0x41, 0x42] ∧
      (∀ f ∈ [example_v3_file], f.well_formed) ∧
      (∀ f ∈ [example_v3_file], (example_v3_archive.drop f.offset).take f.content.length
        = content_cipher_from f.key 0 f.content) ∧
      (∀ f ∈ [example_v3_file], f.separators_low (v3_directory_key 100)) ∧
      (∀ f ∈ [example_v3_file],
        always_ok.accepts (f.name.map normalize_separator) f.content)) ∧
    (unpack always_ok example_v3_archive).2 = none ∧
      files_written (unpack always_ok example_v3_archive).1
        = [example_v3_file].map
            (fun f => (c_str (f.name.map normalize_separator), f.content)) :=
  ⟨⟨by decide, rfl, by decide, by decide, by decide, by decide⟩,
    v3_round_trip always_ok 100 [example_v3_file] example_v3_archive
      (content_cipher_from 7 0 [0x41, 0x42]) (by decide) rfl (by decide) (by decide)
      (by decide) (by decide)⟩

/-- Claim C1 as stated fails.  In the archive with header value `100` the file named `\ab`
is written at `\ab`, not at `/ab`: the backslash meets the key byte `0x87` and is not
replaced.  The file named `a`, NUL, `b` is written at `a`. -/
theorem v3_round_trip_as_stated_fails :
    (backslash_v3_file.well_formed ∧
      (backslash_v3_archive.drop 35).take 2 = content_cipher_from 7 0 [0x41, 0x42] ∧
      unpack always_ok backslash_v3_archive
        = ([.create [0x5c, 0x61, 0x62], .write [0x5c, 0x61, 0x62] [0x41, 0x42]], none) ∧
      files_written (unpack always_ok backslash_v3_archive).1
        ≠ [(backslash_v3_file.name.map normalize_separator, backslash_v3_file.content)]) ∧
    (nul_v3_file.well_formed ∧
      (nul_v3_archive.drop 35).take 2 = content_cipher_from 7 0 [0x41, 0x42] ∧
      unpack always_ok nul_v3_archive
        = ([.create [0x61], .write [0x61] [0x41, 0x42]], none) ∧
      files_written (unpack always_ok nul_v3_archive).1
        ≠ [(nul_v3_file.name.map normalize_separator, nul_v3_file.content)]) := by
  decide

/-- Claim C2, amended.  For the v1 archive built from a list of entries (signature, version
byte 1, and per entry the name length, the name and the content length under the running
directory key seeded with `0xDEADCAFE`, then the content under the key as it stands after
the size field), of total length below `2 ^ 32`, with no name and no content longer than
the `MAX_RW_COUNT` bytes one call of `::read` delivers: the directory pass returns one
descriptor per entry, in order, with the offset right after the size field, the content size
and that key; and, when the output side accepts every call, `unpack` ends without error and writes
one file per entry, in order, with exactly the plain content, at the C string of the name
with every backslash replaced by `'/'` (the name up to its first NUL byte). -/
theorem v1_round_trip (io : OutputIO) (entries : List v1_entry)
    (hbytes : ∀ e ∈ entries, ∀ b ∈ e.name, b < 256)
    (hL : (v1_archive entries).length < 2 ^ 32)
    (hmax : ∀ e ∈ entries, e.name.length ≤ MAX_RW_COUNT ∧ e.content.length ≤ MAX_RW_COUNT)
    (hio : ∀ e ∈ entries, io.accepts (e.name.map normalize_separator) e.content) :
    unpack_v1.loop (v1_archive entries).length ⟨v1_archive entries, 8⟩ 0xdeadcafe []
        = .ok (v1_records entries 0xdeadcafe 8,
            ⟨v1_archive entries, (v1_archive entries).length⟩) ∧
      (unpack io (v1_archive entries)).2 = none ∧
      files_written (unpack io (v1_archive entries)).1
        = entries.map (fun e => (c_str (e.name.map normalize_separator), e.content)) := by
  have hdrop := v1_archive_drop entries
  have hlen8 : 8 ≤ (v1_archive entries).length := by
    simp [v1_archive, RGSSAD]
  have hfuel : entries.length ≤ (v1_archive entries).length := by
    have h1 := v1_encode_length_le entries 0xdeadcafe
    have h2 : (v1_archive entries).length = 8 + (v1_encode entries 0xdeadcafe).length := by
      simp only [v1_archive, RGSSAD, List.length_append, List.length_cons, List.length_nil]
      omega
    omega
  have hloop := unpack_v1_loop_eq (v1_archive entries) hL entries 0xdeadcafe 8
    (v1_archive entries).length [] hfuel hbytes (fun e he => (hmax e he).1) (by norm_num)
    hlen8 hdrop
  rw [List.nil_append] at hloop
  obtain ⟨trace, ht, hw⟩ := v1_extract_ok io (v1_archive entries) hL entries 0xdeadcafe 8
    (v1_archive entries).length hdrop hlen8 (fun e he => (hmax e he).2) hio
  have hunpack : unpack io (v1_archive entries) = (trace, none) := by
    have hgood := unpack_good_signature io 1 (v1_encode entries 0xdeadcafe)
    rw [show RGSSAD ++ 1 :: v1_encode entries 0xdeadcafe = v1_archive entries from rfl] at hgood
    rw [hgood]
    simp only [if_true, unpack_v1, filereader.size, hloop, ht]
  rw [hunpack]
  exact ⟨hloop, rfl, hw⟩

/-- Witness of `v1_round_trip`: the files `a\b` with content `AB` and `c` with content
`xyz`. -/
theorem v1_round_trip_witness :
    ((∀ e ∈ example_v1_entries, ∀ b ∈ e.name, b < 256) ∧
      (v1_archive example_v1_entries).length < 2 ^ 32 ∧
      (∀ e ∈ example_v1_entries,
        e.name.length ≤ MAX_RW_COUNT ∧ e.content.length ≤ MAX_RW_COUNT) ∧
      (∀ e ∈ example_v1_entries,
        always_ok.accepts (e.name.map normalize_separator) e.content)) ∧
    unpack_v1.loop (v1_archive example_v1_entries).length
        ⟨v1_archive example_v1_entries, 8⟩ 0xdeadcafe []
      = .ok (v1_records example_v1_entries 0xdeadcafe 8,
          ⟨v1_archive example_v1_entries, (v1_archive example_v1_entries).length⟩) ∧
    (unpack always_ok (v1_archive example_v1_entries)).2 = none ∧
    files_written (unpack always_ok (v1_archive example_v1_entries)).1
      = example_v1_entries.map
          (fun e => (c_str (e.name.map normalize_separator), e.content)) :=
  ⟨⟨by decide, by decide, by decide, by decide⟩,
    v1_round_trip always_ok example_v1_entries (by decide) (by decide) (by decide)
      (by decide)⟩

/-- Claim C2 as stated fails.  In the v1 archive of one file named `a`, NUL, `b` the file
is written at `a`, the C string of the name, not at the name. -/
theorem v1_round_trip_as_stated_fails :
    (v1_archive nul_v1_entries).length < 2 ^ 32 ∧
      unpack always_ok (v1_archive nul_v1_entries)
        = ([.create [0x61], .write [0x61] [0x41, 0x42]], none) ∧
      files_written (unpack always_ok (v1_archive nul_v1_entries)).1
        ≠ nul_v1_entries.map (fun e => (e.name.map normalize_separator, e.content)) := by
  decide

/-- Claim C3.  The buffer left by the decryption loop of `file_record::extract` has the
length of the encrypted buffer, and its byte `i` is the encrypted byte `i` XORed with byte
`i mod 4` of the key obtained from the descriptor key by `i / 4` advances. -/
theorem content_cipher_closed_form (k : Nat) (c : List Nat) :
    (file_record.extract.loop c.length 0 0 k c).length = c.length ∧
      ∀ i, i < c.length →
        (file_record.extract.loop c.length 0 0 k c).getD i 0
          = c.getD i 0 ^^^ ((key_advance^[i / 4] k >>> (8 * (i % 4))) &&& 0xff) := by
  have hloop := extract_loop_eq k c [] 0 k (Or.inl ⟨rfl, rfl, rfl⟩)
  simp only [List.nil_append, List.length_nil] at hloop
  rw [hloop]
  refine ⟨content_cipher_from_length k c 0, ?_⟩
  intro i hi
  rw [List.getD_eq_getElem?_getD, List.getD_eq_getElem?_getD, content_cipher_from_getElem?,
    List.getElem?_eq_getElem hi]
  simp [content_key_byte, key_byte]

/-- Claim C4, at the failing input.  The input byte `0xDC` XORed with the key byte `0x80` is
`0x5C`; `decrypt_v3_filename` returns it as `0x5C`, while `decrypt_v1_filename` returns
`0x2F` for the same byte and key. -/
theorem v3_filename_keeps_backslash :
    0xdc ^^^ key_byte 0x80 0 = 0x5c ∧ decrypt_v3_filename [0xdc] 0x80 = [0x5c] ∧
      (decrypt_v1_filename [0xdc] 0x80).1 = [0x2f] := by
  decide

/-- Claim C5.  For an input string of fewer than `2 ^ 32` bytes, `decrypt_v1_filename`
returns a string of the same length whose byte `i` is the normalised XOR of input byte `i`
with the low byte of the key advanced `i` times, and leaves the key advanced once per
byte. -/
theorem v1_filename_closed_form (s : List Nat) (k : Nat) (hlen : s.length < 2 ^ 32)
    (hbytes : ∀ b ∈ s, b < 256) :
    (decrypt_v1_filename s k).1.length = s.length ∧
      (∀ i, i < s.length →
        (decrypt_v1_filename s k).1.getD i 0
          = normalize_separator (s.getD i 0 ^^^ (key_advance^[i] k &&& 0xff))) ∧
      (decrypt_v1_filename s k).2 = key_advance^[s.length] k := by
  rw [decrypt_v1_filename_eq s k hlen hbytes]
  refine ⟨v1_name_plain_length s k, ?_, rfl⟩
  intro i hi
  rw [List.getD_eq_getElem?_getD, List.getD_eq_getElem?_getD, v1_name_plain_getElem?,
    List.getElem?_eq_getElem hi]
  simp

/-- Witness of `v1_filename_closed_form`: the bytes `0xDC`, `0x61` with key `0x80`. -/
theorem v1_filename_closed_form_witness :
    [0xdc, 0x61].length < 2 ^ 32 ∧ (∀ b ∈ [0xdc, 0x61], b < 256) ∧
      (decrypt_v1_filename [0xdc, 0x61] 0x80).1.length = [0xdc, 0x61].length ∧
      (∀ i, i < [0xdc, 0x61].length →
        (decrypt_v1_filename [0xdc, 0x61] 0x80).1.getD i 0
          = normalize_separator ([0xdc, 0x61].getD i 0 ^^^ (key_advance^[i] 0x80 &&& 0xff))) ∧
      (decrypt_v1_filename [0xdc, 0x61] 0x80).2 = key_advance^[[0xdc, 0x61].length] 0x80 :=
  ⟨by decide, by decide, v1_filename_closed_form [0xdc, 0x61] 0x80 (by decide) (by decide)⟩

/-- Claim C6.  When the directory of a v3 archive consists of records with non-zero
offsets, whose names are no longer than the `MAX_RW_COUNT` bytes one call of `::read`
delivers, followed by a word that decrypts to offset `0`, the directory pass returns exactly
the descriptors of these records and stops behind that word, whatever bytes follow; when
the first directory word decrypts to `0`, `unpack` issues no call on the output side and
ends without error. -/
theorem v3_sentinel_termination (io : OutputIO) (h : Nat) (entries : List v3_entry)
    (rest : List Nat) (hh : h < 2 ^ 32) (hwf : ∀ e ∈ entries, e.well_formed) :
    unpack_v3.records ⟨v3_directory h entries ++ rest, 8⟩
        = .ok (entries.map (v3_entry.record (v3_directory_key h)),
            ⟨v3_directory h entries ++ rest, (v3_directory h entries).length⟩) ∧
      unpack io (v3_directory h [] ++ rest) = ([], none) := by
  refine ⟨unpack_v3_records_eq h entries rest hh hwf, ?_⟩
  have hempty := unpack_v3_records_eq h [] rest hh (by simp)
  have hshape : v3_directory h [] ++ rest
      = RGSSAD ++ 3 :: (le32_bytes h ++ le32_bytes (0 ^^^ v3_directory_key h) ++ rest) := by
    simp [v3_directory, v3_encode_entries]
  have hgood := unpack_good_signature io 3
    (le32_bytes h ++ le32_bytes (0 ^^^ v3_directory_key h) ++ rest)
  rw [← hshape] at hgood
  rw [hgood]
  simp only [Nat.reduceEqDiff, if_false, if_true, unpack_v3, hempty, List.map_nil,
    extract_records]

/-- Witness of `v3_sentinel_termination`: header value `100`, one record, three bytes
behind the sentinel. -/
theorem v3_sentinel_termination_witness :
    (100 < 2 ^ 32 ∧ ∀ e ∈ [example_v3_entry], e.well_formed) ∧
      unpack_v3.records ⟨v3_directory 100 [example_v3_entry] ++ [1, 2, 3], 8⟩
        = .ok ([example_v3_entry].map (v3_entry.record (v3_directory_key 100)),
            ⟨v3_directory 100 [example_v3_entry] ++ [1, 2, 3],
              (v3_directory 100 [example_v3_entry]).length⟩) ∧
      unpack always_ok (v3_directory 100 [] ++ [1, 2, 3]) = ([], none) :=
  ⟨⟨by decide, by decide⟩,
    v3_sentinel_termination always_ok 100 [example_v3_entry] [1, 2, 3] (by decide) (by decide)⟩

/-- Claim C7.  On an archive of at least seven bytes whose signature field differs from
`"RGSSAD"`, `unpack` throws the error `Invalid input file` and has issued no call on the
output side; nothing behind the seven bytes is looked at, the archive may end there. -/
theorem signature_rejection (io : OutputIO) (data : List Nat) (hlen : 7 ≤ data.length)
    (hsig : data.take 7 ≠ RGSSAD) : unpack io data = ([], some .invalid_input_file) :=
  unpack_bad_signature io data hlen hsig

/-- Witness of `signature_rejection`: the seven bytes `XGSSAD` and NUL. -/
theorem signature_rejection_witness :
    7 ≤ [0x58, 0x47, 0x53, 0x53, 0x41, 0x44, 0].length ∧
      [0x58, 0x47, 0x53, 0x53, 0x41, 0x44, 0].take 7 ≠ RGSSAD ∧
      unpack always_ok [0x58, 0x47, 0x53, 0x53, 0x41, 0x44, 0]
        = ([], some .invalid_input_file) :=
  ⟨by decide, by decide,
    signature_rejection always_ok [0x58, 0x47, 0x53, 0x53, 0x41, 0x44, 0] (by decide)
      (by decide)⟩

/-- Claim C8 as stated fails.  The archive `RGSSAD`, `X`, version byte 1 begins with the
six characters and is rejected, while the same archive with NUL as seventh byte is
accepted. -/
theorem signature_seventh_byte_counts :
    [0x52, 0x47, 0x53, 0x53, 0x41, 0x44, 0x58, 1].take 6 = RGSSAD.take 6 ∧
      strncmp ([0x52, 0x47, 0x53, 0x53, 0x41, 0x44, 0x58, 1].take 7) RGSSAD 7 ≠ 0 ∧
      unpack always_ok [0x52, 0x47, 0x53, 0x53, 0x41, 0x44, 0x58, 1]
        = ([], some .invalid_input_file) ∧
      unpack always_ok [0x52, 0x47, 0x53, 0x53, 0x41, 0x44, 0, 1] = ([], none) := by
  decide

/-- Claim C8, amended.  For an archive of at least seven bytes whose first six bytes are
`R`, `G`, `S`, `S`, `A`, `D`, the signature check of `unpack` succeeds exactly when the
seventh byte is NUL; with any other seventh byte `unpack` throws `Invalid input file`. -/
theorem signature_needs_terminator (io : OutputIO) (data : List Nat) (hlen : 7 ≤ data.length)
    (hsix : data.take 6 = RGSSAD.take 6) :
    (strncmp (data.take 7) RGSSAD 7 = 0 ↔ data.getD 6 0 = 0) ∧
      (data.getD 6 0 ≠ 0 → unpack io data = ([], some .invalid_input_file)) := by
  have hl : (data.take 7).length = 7 := by rw [List.length_take]; omega
  have h7 : data.take 7 = data.take 6 ++ [data.getD 6 0] := by
    rw [List.getD_eq_getElem?_getD, List.getElem?_eq_getElem (by omega), Option.getD_some,
      List.take_succ, List.getElem?_eq_getElem (by omega)]
    rfl
  have hiff : data.take 7 = RGSSAD ↔ data.getD 6 0 = 0 := by
    rw [h7, hsix]
    simp [RGSSAD]
  refine ⟨(strncmp_RGSSAD _ hl).trans hiff, ?_⟩
  intro hne
  exact unpack_bad_signature io data hlen (fun h => hne (hiff.mp h))

/-- Witness of `signature_needs_terminator`: the archive `RGSSAD`, NUL, version byte 1. -/
theorem signature_needs_terminator_witness :
    (7 ≤ [0x52, 0x47, 0x53, 0x53, 0x41, 0x44, 0, 1].length ∧
      [0x52, 0x47, 0x53, 0x53, 0x41, 0x44, 0, 1].take 6 = RGSSAD.take 6) ∧
      (strncmp ([0x52, 0x47, 0x53, 0x53, 0x41, 0x44, 0, 1].take 7) RGSSAD 7 = 0 ↔
        [0x52, 0x47, 0x53, 0x53, 0x41, 0x44, 0, 1].getD 6 0 = 0) ∧
      ([0x52, 0x47, 0x53, 0x53, 0x41, 0x44, 0, 1].getD 6 0 ≠ 0 →
        unpack always_ok [0x52, 0x47, 0x53, 0x53, 0x41, 0x44, 0, 1]
          = ([], some .invalid_input_file)) :=
  ⟨⟨by decide, by decide⟩,
    signature_needs_terminator always_ok [0x52, 0x47, 0x53, 0x53, 0x41, 0x44, 0, 1]
      (by decide) (by decide)⟩

/-- Claim C9.  On an archive with a valid signature and version byte `version`, `unpack` is
`unpack_v1` on the reader at position 8 when the version is 1, `unpack_v3` on that reader
when it is 3, and for every other value it throws `Unsupported version` and has issued no
call on the output side. -/
theorem version_dispatch (io : OutputIO) (version : Nat) (rest : List Nat) :
    unpack io (RGSSAD ++ version :: rest)
      = if version = 1 then unpack_v1 io ⟨RGSSAD ++ version :: rest, 8⟩
        else if version = 3 then unpack_v3 io ⟨RGSSAD ++ version :: rest, 8⟩
        else ([], some .unsupported_version) :=
  unpack_good_signature io version rest

/-- Claim C10.  `decrypt_v1_int` leaves the key `(k * 7 + 3) mod 2 ^ 32`, and applied again
from the key `k` to its own result it gives back the value and leaves the same key;
`decrypt_v3_int` applied twice with the same key gives back the value.  The key of
`decrypt_v3_int` is passed by value: the function has no key to leave. -/
theorem integer_cipher_symmetry (v k : Nat) :
    (decrypt_v1_int v k).2 = (k * 7 + 3) % 2 ^ 32 ∧
      decrypt_v1_int (decrypt_v1_int v k).1 k = (v, (k * 7 + 3) % 2 ^ 32) ∧
      decrypt_v3_int (decrypt_v3_int v k) k = v := by
  simp [decrypt_v1_int, decrypt_v3_int, key_advance, Nat.xor_cancel_right]

/-! ## The directory loops, one iteration at a time -/

/-- The loop of `unpack_v1` runs its body `unpack_v1.entry` while the position is before
the end of the archive. -/
theorem unpack_v1_loop_succ (fuel : Nat) (input : filereader) (key : Nat)
    (records : List file_record) :
    unpack_v1.loop (fuel + 1) input key records
      = if input.offset < input.size then
          match unpack_v1.entry input key with
          | .error e => .error e
          | .ok (r, input', key') => unpack_v1.loop fuel input' key' (records ++ [r])
        else .ok (records, input) := by
  rw [unpack_v1.loop]
  split_ifs with hcond
  · unfold unpack_v1.entry
    cases h1 : input.read_u32 with
    | error e => rfl
    | ok res1 =>
      obtain ⟨w1, r1⟩ := res1
      simp only
      cases h2 : r1.read_string (decrypt_v1_int w1 key).1 with
      | error e => rfl
      | ok res2 =>
        obtain ⟨raw, r2⟩ := res2
        simp only
        cases h3 : r2.read_u32 with
        | error e => rfl
        | ok res3 =>
          obtain ⟨w3, r3⟩ := res3
          simp only
          cases h4 : r3.seek ((r3.offset +
              (decrypt_v1_int w3 (decrypt_v1_filename raw (decrypt_v1_int w1 key).2).2).1)
                % 2 ^ 64) with
          | error e => rfl
          | ok r4 => rfl
  · rfl

/-- The loop of `unpack_v3` runs `unpack_v3.entry` until it meets the sentinel. -/
theorem unpack_v3_loop_succ (fuel : Nat) (input : filereader) (key : Nat)
    (records : List file_record) :
    unpack_v3.loop (fuel + 1) input key records
      = match unpack_v3.entry input key with
        | .error e => .error e
        | .ok (none, input') => .ok (records, input')
        | .ok (some r, input') => unpack_v3.loop fuel input' key (records ++ [r]) := by
  rw [unpack_v3.loop]
  unfold unpack_v3.entry
  cases h1 : input.read_u32 with
  | error e => rfl
  | ok res1 =>
    obtain ⟨w1, r1⟩ := res1
    simp only
    split_ifs with hz
    · rfl
    · cases h2 : r1.read_u32 with
      | error e => rfl
      | ok res2 =>
        obtain ⟨w2, r2⟩ := res2
        simp only
        cases h3 : r2.read_u32 with
        | error e => rfl
        | ok res3 =>
          obtain ⟨w3, r3⟩ := res3
          simp only
          cases h4 : r3.read_u32 with
          | error e => rfl
          | ok res4 =>
            obtain ⟨w4, r4⟩ := res4
            simp only
            cases h5 : r4.read_string (decrypt_v3_int w4 key) with
            | error e => rfl
            | ok res5 => rfl

/-! ## Claims C11, C15 and C17 -/

/-- Claim C11.  When the directory pass of `unpack_v1` or of `unpack_v3` ends with an
error, on an archive with a valid signature and that version byte, `unpack` ends with that
error and has issued no call on the output side, whatever was decoded before. -/
theorem parse_failure_writes_nothing (io : OutputIO) (version : Nat) (rest : List Nat)
    (e : Error)
    (hparse :
      (version = 1 ∧
        unpack_v1.loop (RGSSAD ++ version :: rest).length ⟨RGSSAD ++ version :: rest, 8⟩
          0xdeadcafe [] = .error e) ∨
      (version = 3 ∧ unpack_v3.records ⟨RGSSAD ++ version :: rest, 8⟩ = .error e)) :
    unpack io (RGSSAD ++ version :: rest) = ([], some e) := by
  rw [unpack_good_signature]
  rcases hparse with ⟨rfl, h⟩ | ⟨rfl, h⟩
  · simp only [if_true, unpack_v1, filereader.size, h]
  · simp only [Nat.reduceEqDiff, if_false, if_true, unpack_v3, h]

/-- Witness of `parse_failure_writes_nothing`: a v3 archive whose directory has one record
and no sentinel; the record is decoded, then the read of the next offset word fails. -/
theorem parse_failure_writes_nothing_witness :
    ((3 = 1 ∧
        unpack_v1.loop unterminated_v3_archive.length ⟨unterminated_v3_archive, 8⟩
          0xdeadcafe [] = .error .read) ∨
      (3 = 3 ∧ unpack_v3.records ⟨unterminated_v3_archive, 8⟩ = .error .read)) ∧
      unpack always_ok unterminated_v3_archive = ([], some .read) :=
  ⟨Or.inr ⟨rfl, rfl⟩,
    parse_failure_writes_nothing always_ok 3
      (le32_bytes 100 ++ v3_encode_entries (v3_directory_key 100) [example_v3_entry]) .read
      (Or.inr ⟨rfl, rfl⟩)⟩

/-- Claim C15, amended.  For a descriptor of size above `0` whose offset plus size exceeds
the length of the archive, `file_record::extract` throws the error of the exact-length read
and has issued no call on the output side. -/
theorem extract_past_end_fails (io : OutputIO) (r : file_record) (input : filereader)
    (hoff : r.m_offset < 2 ^ 32) (hsize : 0 < r.m_size)
    (hpast : input.data.length < r.m_offset + r.m_size) :
    r.extract io input = ([], .error .read) := by
  have hseek : input.seek r.m_offset = .ok ⟨input.data, r.m_offset⟩ := by
    unfold filereader.seek
    rw [if_neg (by omega)]
  have hlen : ((input.data.drop r.m_offset).take r.m_size).length ≠ r.m_size := by
    rw [List.length_take, List.length_drop]
    omega
  have hrd : filereader.read ⟨input.data, r.m_offset⟩ r.m_size = .error .read := by
    rw [read_eq, if_neg (fun h => hlen h.2)]
  simp only [file_record.extract, hseek, hrd]

/-- Witness of `extract_past_end_fails`: size `2` at offset `3` of a four-byte archive. -/
theorem extract_past_end_fails_witness :
    (record_past_end.m_offset < 2 ^ 32 ∧ 0 < record_past_end.m_size ∧
      (⟨[1, 2, 3, 4], 0⟩ : filereader).data.length
        < record_past_end.m_offset + record_past_end.m_size) ∧
      record_past_end.extract always_ok ⟨[1, 2, 3, 4], 0⟩ = ([], .error .read) :=
  ⟨by decide,
    extract_past_end_fails always_ok record_past_end ⟨[1, 2, 3, 4], 0⟩ (by decide)
      (by decide) (by decide)⟩

/-- Claim C15 as stated fails.  The descriptor with offset `100` and size `0` has offset
plus size behind the end of a four-byte archive, and it is extracted without error: the
read of no bytes succeeds and an empty file is created.  The v3 archive of `35` bytes whose
record has offset `1000` and size `0` is unpacked in this way. -/
theorem extract_past_end_as_stated_fails :
    ((⟨[1, 2, 3, 4], 0⟩ : filereader).data.length
        < empty_record_past_end.m_offset + empty_record_past_end.m_size ∧
      empty_record_past_end.extract always_ok ⟨[1, 2, 3, 4], 0⟩
        = ([.create [0x61], .write [0x61] []], .ok ⟨[1, 2, 3, 4], 100⟩)) ∧
    (empty_file_v3_archive.length = 35 ∧
      unpack always_ok empty_file_v3_archive
        = ([.mkdir [0x61], .create [0x61, 0x2f, 0x62], .write [0x61, 0x2f, 0x62] []],
            none)) :=
  ⟨⟨by decide, rfl⟩, by decide, by decide⟩

/-- Claim C17.  The decryption loop of `file_record::extract`, applied with key `k` to its
own output under key `k`, gives back the buffer, and its output has the length of its
input. -/
theorem content_cipher_involution (k : Nat) (b : List Nat) :
    file_record.extract.loop (file_record.extract.loop b.length 0 0 k b).length 0 0 k
        (file_record.extract.loop b.length 0 0 k b) = b ∧
      (file_record.extract.loop b.length 0 0 k b).length = b.length := by
  have h1 := extract_loop_eq k b [] 0 k (Or.inl ⟨rfl, rfl, rfl⟩)
  have h2 := extract_loop_eq k (content_cipher_from k 0 b) [] 0 k (Or.inl ⟨rfl, rfl, rfl⟩)
  simp only [List.nil_append, List.length_nil] at h1 h2
  rw [h1, h2, content_cipher_from_involutive]
  exact ⟨rfl, content_cipher_from_length k b 0⟩

/-! ## What a decoded entry tells -/

theorem decrypt_v3_filename_loop_length (input : List Nat) (key : Nat) :
    ∀ (left i : Nat) (output : List Nat),
      (decrypt_v3_filename.loop input key left i output).length = output.length := by
  intro left
  induction left with
  | zero => intro i output; rfl
  | succ left ih =>
    intro i output
    simp only [decrypt_v3_filename.loop]
    split_ifs
    · rw [ih, List.length_set]
    · rw [ih, List.length_set]

theorem decrypt_v3_filename_length (input : List Nat) (key : Nat) :
    (decrypt_v3_filename input key).length = input.length := by
  simp only [decrypt_v3_filename, decrypt_v3_filename_loop_length, List.length_replicate]

theorem read_bytes_lt (data : List Nat) (hb : ∀ b ∈ data, b < 256) (pos amount : Nat) :
    ∀ b ∈ (data.drop pos).take amount, b < 256 :=
  fun b hm => hb b (List.mem_of_mem_drop (List.mem_of_mem_take hm))

/-- What a successful run of the body of the v1 loop tells: the header lies inside the
archive, the record holds the position behind the header, the decoded size and the key
advanced once per name byte and twice more, and the reader stands at offset plus size. -/
theorem unpack_v1_entry_inv (data : List Nat) (hb : ∀ b ∈ data, b < 256) (pos key : Nat)
    (hk : key < 2 ^ 32) (r : file_record) (input' : filereader) (key' : Nat)
    (h : unpack_v1.entry ⟨data, pos⟩ key = .ok (r, input', key')) :
    pos + 4 + r.m_name.length + 4 ≤ data.length ∧ r.m_name.length < 2 ^ 32 ∧
      r.m_offset = (pos + 4 + r.m_name.length + 4) % 2 ^ 32 ∧ r.m_size < 2 ^ 32 ∧
      r.m_key = key_advance^[r.m_name.length + 2] key ∧ key' = r.m_key ∧
      input' = ⟨data, (pos + 4 + r.m_name.length + 4 + r.m_size) % 2 ^ 64⟩ ∧
      (pos + 4 + r.m_name.length + 4 + r.m_size) % 2 ^ 64 < 2 ^ 63 := by
  unfold unpack_v1.entry at h
  cases h1 : filereader.read_u32 ⟨data, pos⟩ with
  | error e => rw [h1] at h; simp at h
  | ok res1 =>
    obtain ⟨w1, r1⟩ := res1
    obtain ⟨rfl, hw1, hp1⟩ := read_u32_ok_inv data pos w1 r1 h1
    rw [h1] at h
    simp only [decrypt_v1_int] at h
    have hw1lt : w1 < 2 ^ 32 := by rw [hw1]; exact le32_lt _ (read_bytes_lt data hb _ _)
    have hn : w1 ^^^ key < 2 ^ 32 := xor_lt_u32 hw1lt hk
    cases h2 : filereader.read_string ⟨data, pos + 4⟩ (w1 ^^^ key) with
    | error e => rw [h2] at h; simp at h
    | ok res2 =>
      obtain ⟨raw, r2⟩ := res2
      obtain ⟨rfl, hraw, hrawlen, -⟩ := read_ok_inv data _ _ raw r2 h2
      rw [h2] at h
      have hrawb : ∀ b ∈ raw, b < 256 := by rw [hraw]; exact read_bytes_lt data hb _ _
      have hname := decrypt_v1_filename_eq raw (key_advance key) (by rw [hrawlen]; exact hn)
        hrawb
      simp only [hname] at h
      cases h3 : filereader.read_u32 ⟨data, pos + 4 + (w1 ^^^ key)⟩ with
      | error e => rw [h3] at h; simp at h
      | ok res3 =>
        obtain ⟨w3, r3⟩ := res3
        obtain ⟨rfl, hw3, hp3⟩ := read_u32_ok_inv data _ w3 r3 h3
        rw [h3] at h
        simp only [filereader.offset] at h
        have hw3lt : w3 < 2 ^ 32 := by rw [hw3]; exact le32_lt _ (read_bytes_lt data hb _ _)
        have hk2 : key_advance^[raw.length] (key_advance key) < 2 ^ 32 :=
          iterate_key_advance_lt _ _ (key_advance_lt key)
        have hsize : w3 ^^^ key_advance^[raw.length] (key_advance key) < 2 ^ 32 :=
          xor_lt_u32 hw3lt hk2
        unfold filereader.seek at h
        split_ifs at h with hseek
        simp only [Except.ok.injEq, Prod.mk.injEq] at h
        obtain ⟨rfl, rfl, rfl⟩ := h
        simp only [v1_name_plain_length, hrawlen]
        refine ⟨hp3, hn, trivial, ?_, ?_, trivial, trivial, ?_⟩
        · rw [← hrawlen]; exact hsize
        · rw [← hrawlen, Function.iterate_succ_apply', Function.iterate_succ_apply]
        · rw [← hrawlen]; omega

/-! ## The records of a v1 directory pass -/

theorem v1_decodes_of_loop (data : List Nat) (hb : ∀ b ∈ data, b < 256) :
    ∀ (fuel pos key : Nat) (acc recs : List file_record) (input' : filereader),
      key < 2 ^ 32 → unpack_v1.loop fuel ⟨data, pos⟩ key acc = .ok (recs, input') →
      ∃ new, recs = acc ++ new ∧ v1_decodes data pos key new := by
  intro fuel
  induction fuel with
  | zero =>
    intro pos key acc recs input' _ h
    simp only [unpack_v1.loop, filereader.offset, filereader.size] at h
    split_ifs at h with hcond
    simp only [Except.ok.injEq, Prod.mk.injEq] at h
    exact ⟨[], by simp [h.1], hcond⟩
  | succ fuel ih =>
    intro pos key acc recs input' hk h
    rw [unpack_v1_loop_succ] at h
    simp only [filereader.offset, filereader.size] at h
    split_ifs at h with hcond
    · cases he : unpack_v1.entry ⟨data, pos⟩ key with
      | error e => rw [he] at h; simp at h
      | ok res =>
        obtain ⟨r, input1, key1⟩ := res
        rw [he] at h
        simp only at h
        obtain ⟨-, -, -, -, hkey, hkey1, hin, -⟩ :=
          unpack_v1_entry_inv data hb pos key hk r input1 key1 he
        have hk1 : key1 < 2 ^ 32 := by
          rw [hkey1, hkey]; exact iterate_key_advance_lt _ _ hk
        rw [hin] at h he
        obtain ⟨new, hnew, hdec⟩ := ih _ key1 (acc ++ [r]) recs input' hk1 h
        exact ⟨r :: new, by simp [hnew], hcond, _, key1, he, hdec⟩
    · simp only [Except.ok.injEq, Prod.mk.injEq] at h
      exact ⟨[], by simp [h.1], hcond⟩

theorem v1_decodes_keys (data : List Nat) (hb : ∀ b ∈ data, b < 256) :
    ∀ (recs : List file_record) (pos key : Nat), key < 2 ^ 32 → v1_decodes data pos key recs →
      ∀ j r, recs[j]? = some r →
        r.m_key
          = key_advance^[((recs.take (j + 1)).map (fun x => x.m_name.length + 2)).sum] key := by
  intro recs
  induction recs with
  | nil => intro pos key _ _ j r hj; simp at hj
  | cons a rs ih =>
    intro pos key hk hdec j r hj
    obtain ⟨-, pos', key', he, hrest⟩ := hdec
    obtain ⟨-, -, -, -, hkey, hkey', -, -⟩ := unpack_v1_entry_inv data hb pos key hk a _ key' he
    cases j with
    | zero =>
      simp only [List.getElem?_cons_zero, Option.some.injEq] at hj
      subst hj
      simp [hkey]
    | succ j =>
      simp only [List.getElem?_cons_succ] at hj
      have hk' : key' < 2 ^ 32 := by
        rw [hkey', hkey]; exact iterate_key_advance_lt _ _ hk
      have hrec := ih pos' key' hk' hrest j r hj
      rw [hrec, hkey', hkey, ← Function.iterate_add_apply]
      simp only [List.take_succ_cons, List.map_cons, List.sum_cons]
      congr 1
      omega

theorem v1_decodes_ranges (data : List Nat) (hb : ∀ b ∈ data, b < 256)
    (hL : data.length < 2 ^ 32) :
    ∀ (recs : List file_record) (pos key : Nat), key < 2 ^ 32 → v1_decodes data pos key recs →
      ∀ i a b, recs[i]? = some a → recs[i + 1]? = some b →
        a.m_offset + a.m_size < data.length ∧ a.m_offset + a.m_size + 8 ≤ b.m_offset := by
  intro recs
  induction recs with
  | nil => intro pos key _ _ i a b hi; simp at hi
  | cons a0 rs ih =>
    intro pos key hk hdec i a b hi hi1
    obtain ⟨-, pos', key', he, hrest⟩ := hdec
    obtain ⟨hin, -, hoff, hsz, hkey, hkey', hpos', -⟩ :=
      unpack_v1_entry_inv data hb pos key hk a0 _ key' he
    have hk' : key' < 2 ^ 32 := by
      rw [hkey', hkey]; exact iterate_key_advance_lt _ _ hk
    cases i with
    | zero =>
      simp only [List.getElem?_cons_zero, Option.some.injEq] at hi
      subst hi
      simp only [Nat.zero_add, List.getElem?_cons_succ] at hi1
      cases rs with
      | nil => simp at hi1
      | cons b0 rs' =>
        simp only [List.getElem?_cons_zero, Option.some.injEq] at hi1
        subst hi1
        obtain ⟨hlt, pos'', key'', he', -⟩ := hrest
        obtain ⟨hin', -, hoff', -, -, -, -, -⟩ :=
          unpack_v1_entry_inv data hb pos' key' hk' b0 _ key'' he'
        simp only [filereader.mk.injEq, true_and] at hpos'
        rw [Nat.mod_eq_of_lt (by omega)] at hoff hoff'
        rw [Nat.mod_eq_of_lt (by omega)] at hpos'
        omega
    | succ i =>
      simp only [List.getElem?_cons_succ] at hi hi1
      exact ih pos' key' hk' hrest i a b hi hi1

theorem v1_decodes_count (data : List Nat) (hb : ∀ b ∈ data, b < 256)
    (hL : data.length < 2 ^ 63) :
    ∀ (recs : List file_record) (pos key : Nat), key < 2 ^ 32 → v1_decodes data pos key recs →
      recs = [] ∨ pos + 8 * recs.length ≤ data.length := by
  intro recs
  induction recs with
  | nil => intro _ _ _ _; exact Or.inl rfl
  | cons a rs ih =>
    intro pos key hk hdec
    obtain ⟨-, pos', key', he, hrest⟩ := hdec
    obtain ⟨hin, -, -, hsz, hkey, hkey', hpos', -⟩ :=
      unpack_v1_entry_inv data hb pos key hk a _ key' he
    have hk' : key' < 2 ^ 32 := by
      rw [hkey', hkey]; exact iterate_key_advance_lt _ _ hk
    simp only [filereader.mk.injEq, true_and] at hpos'
    rw [Nat.mod_eq_of_lt (by omega)] at hpos'
    right
    rcases ih pos' key' hk' hrest with h | h
    · subst h; simp only [List.length_cons, List.length_nil]; omega
    · simp only [List.length_cons]; omega

theorem unpack_v1_entry_error (data : List Nat) (hb : ∀ b ∈ data, b < 256)
    (hlen : data.length + 2 ^ 32 ≤ 2 ^ 63) (pos key : Nat) (e : Error)
    (h : unpack_v1.entry ⟨data, pos⟩ key = .error e) : e = .read := by
  unfold unpack_v1.entry at h
  cases h1 : filereader.read_u32 ⟨data, pos⟩ with
  | error e1 =>
    rw [h1] at h
    simp only [Except.error.injEq] at h
    rw [← h]; exact read_u32_error_inv _ _ h1
  | ok res1 =>
    obtain ⟨w1, r1⟩ := res1
    obtain ⟨rfl, hw1, hp1⟩ := read_u32_ok_inv data pos w1 r1 h1
    rw [h1] at h
    simp only [decrypt_v1_int] at h
    cases h2 : filereader.read_string ⟨data, pos + 4⟩ (w1 ^^^ key) with
    | error e2 =>
      rw [h2] at h
      simp only [Except.error.injEq] at h
      rw [← h]; exact read_error_inv _ _ _ h2
    | ok res2 =>
      obtain ⟨raw, r2⟩ := res2
      obtain ⟨rfl, -, -, -⟩ := read_ok_inv data _ _ raw r2 h2
      rw [h2] at h
      simp only at h
      cases h3 : filereader.read_u32 ⟨data, pos + 4 + (w1 ^^^ key)⟩ with
      | error e3 =>
        rw [h3] at h
        simp only [Except.error.injEq] at h
        rw [← h]; exact read_u32_error_inv _ _ h3
      | ok res3 =>
        obtain ⟨w3, r3⟩ := res3
        obtain ⟨rfl, hw3, hp3⟩ := read_u32_ok_inv data _ w3 r3 h3
        rw [h3] at h
        simp only [filereader.offset] at h
        have hw3lt : w3 < 2 ^ 32 := by rw [hw3]; exact le32_lt _ (read_bytes_lt data hb _ _)
        have hk2 : (decrypt_v1_filename raw (key_advance key)).2 < 2 ^ 32 :=
          decrypt_v1_filename_loop_key_lt raw _ _ _ _ (key_advance_lt key)
        have hsize : w3 ^^^ (decrypt_v1_filename raw (key_advance key)).2 < 2 ^ 32 :=
          xor_lt_u32 hw3lt hk2
        unfold filereader.seek at h
        rw [if_neg (by omega)] at h
        simp at h

/-- A run of the body of the v1 loop moves the reader forward by eight bytes or more. -/
theorem unpack_v1_entry_advances (data : List Nat) (hb : ∀ b ∈ data, b < 256)
    (hlen : data.length < 2 ^ 63) (pos key : Nat) (hk : key < 2 ^ 32) (r : file_record)
    (pos' key' : Nat) (h : unpack_v1.entry ⟨data, pos⟩ key = .ok (r, ⟨data, pos'⟩, key')) :
    pos + 8 ≤ pos' ∧ key' < 2 ^ 32 := by
  obtain ⟨hin, -, -, hsz, hkey, hkey', hpos', -⟩ :=
    unpack_v1_entry_inv data hb pos key hk r _ key' h
  simp only [filereader.mk.injEq, true_and] at hpos'
  rw [Nat.mod_eq_of_lt (by omega)] at hpos'
  refine ⟨by omega, ?_⟩
  rw [hkey', hkey]
  exact iterate_key_advance_lt _ _ hk

theorem unpack_v1_loop_total (data : List Nat) (hb : ∀ b ∈ data, b < 256)
    (hlen : data.length + 2 ^ 32 ≤ 2 ^ 63) :
    ∀ (fuel pos key : Nat) (acc : List file_record), key < 2 ^ 32 →
      data.length ≤ pos + 8 * fuel →
      unpack_v1.loop fuel ⟨data, pos⟩ key acc = .error .read ∨
        ∃ recs input', unpack_v1.loop fuel ⟨data, pos⟩ key acc = .ok (recs, input') := by
  intro fuel
  induction fuel with
  | zero =>
    intro pos key acc _ h
    right
    simp only [unpack_v1.loop, filereader.offset, filereader.size]
    rw [if_neg (by omega)]
    exact ⟨_, _, rfl⟩
  | succ fuel ih =>
    intro pos key acc hk hfuel
    rw [unpack_v1_loop_succ]
    simp only [filereader.offset, filereader.size]
    split_ifs with hcond
    · cases he : unpack_v1.entry ⟨data, pos⟩ key with
      | error e =>
        left
        rw [unpack_v1_entry_error data hb hlen pos key e he]
      | ok res =>
        obtain ⟨r, input1, key1⟩ := res
        obtain ⟨-, -, -, -, -, -, hin, -⟩ := unpack_v1_entry_inv data hb pos key hk r _ _ he
        rw [hin] at he
        obtain ⟨hadv, hk1⟩ := unpack_v1_entry_advances data hb (by omega) pos key hk r _ _ he
        simp only [hin]
        exact ih _ key1 _ hk1 (by omega)
    · exact Or.inr ⟨_, _, rfl⟩

/-! ## The records of a v3 directory pass -/

theorem unpack_v3_entry_error (input : filereader) (key : Nat) (e : Error)
    (h : unpack_v3.entry input key = .error e) : e = .read := by
  unfold unpack_v3.entry at h
  cases h1 : input.read_u32 with
  | error e1 =>
    rw [h1] at h
    simp only [Except.error.injEq] at h
    rw [← h]; exact read_u32_error_inv _ _ h1
  | ok res1 =>
    obtain ⟨w1, r1⟩ := res1
    rw [h1] at h
    simp only at h
    split_ifs at h
    cases h2 : r1.read_u32 with
    | error e2 =>
      rw [h2] at h
      simp only [Except.error.injEq] at h
      rw [← h]; exact read_u32_error_inv _ _ h2
    | ok res2 =>
      obtain ⟨w2, r2⟩ := res2
      rw [h2] at h
      simp only at h
      cases h3 : r2.read_u32 with
      | error e3 =>
        rw [h3] at h
        simp only [Except.error.injEq] at h
        rw [← h]; exact read_u32_error_inv _ _ h3
      | ok res3 =>
        obtain ⟨w3, r3⟩ := res3
        rw [h3] at h
        simp only at h
        cases h4 : r3.read_u32 with
        | error e4 =>
          rw [h4] at h
          simp only [Except.error.injEq] at h
          rw [← h]; exact read_u32_error_inv _ _ h4
        | ok res4 =>
          obtain ⟨w4, r4⟩ := res4
          rw [h4] at h
          simp only at h
          cases h5 : r4.read_string (decrypt_v3_int w4 key) with
          | error e5 =>
            rw [h5] at h
            simp only [Except.error.injEq] at h
            rw [← h]; exact read_error_inv _ _ _ h5
          | ok res5 => rw [h5] at h; simp at h

/-- What a decoded v3 record tells: the record lies inside the archive and the reader is
left behind its name, sixteen bytes and the name length further. -/
theorem unpack_v3_entry_inv (data : List Nat) (pos key : Nat) (r : file_record)
    (input' : filereader) (h : unpack_v3.entry ⟨data, pos⟩ key = .ok (some r, input')) :
    pos + 16 + r.m_name.length ≤ data.length ∧
      input' = ⟨data, pos + 16 + r.m_name.length⟩ ∧ r.m_offset ≠ 0 := by
  unfold unpack_v3.entry at h
  cases h1 : filereader.read_u32 ⟨data, pos⟩ with
  | error e1 => rw [h1] at h; simp at h
  | ok res1 =>
    obtain ⟨w1, r1⟩ := res1
    obtain ⟨rfl, -, hp1⟩ := read_u32_ok_inv data pos w1 r1 h1
    rw [h1] at h
    simp only at h
    have hz : decrypt_v3_int w1 key ≠ 0 := by
      intro hz0
      rw [if_pos hz0] at h
      simp at h
    rw [if_neg hz] at h
    cases h2 : filereader.read_u32 ⟨data, pos + 4⟩ with
    | error e2 => rw [h2] at h; simp at h
    | ok res2 =>
      obtain ⟨w2, r2⟩ := res2
      obtain ⟨rfl, -, hp2⟩ := read_u32_ok_inv data _ w2 r2 h2
      rw [h2] at h
      simp only at h
      cases h3 : filereader.read_u32 ⟨data, pos + 4 + 4⟩ with
      | error e3 => rw [h3] at h; simp at h
      | ok res3 =>
        obtain ⟨w3, r3⟩ := res3
        obtain ⟨rfl, -, hp3⟩ := read_u32_ok_inv data _ w3 r3 h3
        rw [h3] at h
        simp only at h
        cases h4 : filereader.read_u32 ⟨data, pos + 4 + 4 + 4⟩ with
        | error e4 => rw [h4] at h; simp at h
        | ok res4 =>
          obtain ⟨w4, r4⟩ := res4
          obtain ⟨rfl, -, hp4⟩ := read_u32_ok_inv data _ w4 r4 h4
          rw [h4] at h
          simp only at h
          cases h5 : filereader.read_string ⟨data, pos + 4 + 4 + 4 + 4⟩
              (decrypt_v3_int w4 key) with
          | error e5 => rw [h5] at h; simp at h
          | ok res5 =>
            obtain ⟨raw, r5⟩ := res5
            obtain ⟨rfl, -, hrawlen, hp5⟩ := read_ok_inv data _ _ raw r5 h5
            rw [h5] at h
            simp only [Except.ok.injEq, Prod.mk.injEq, Option.some.injEq] at h
            obtain ⟨rfl, rfl⟩ := h
            simp only [decrypt_v3_filename_length, hrawlen]
            refine ⟨?_, ?_, hz⟩
            · by_cases hn : 0 < decrypt_v3_int w4 key
              · have := hp5 hn; omega
              · omega
            · trivial

theorem unpack_v3_entry_none_inv (data : List Nat) (pos key : Nat) (input' : filereader)
    (h : unpack_v3.entry ⟨data, pos⟩ key = .ok (none, input')) :
    pos + 4 ≤ data.length ∧ input' = ⟨data, pos + 4⟩ ∧
      ∃ w, filereader.read_u32 ⟨data, pos⟩ = .ok (w, ⟨data, pos + 4⟩) ∧
        decrypt_v3_int w key = 0 := by
  unfold unpack_v3.entry at h
  cases h1 : filereader.read_u32 ⟨data, pos⟩ with
  | error e1 => rw [h1] at h; simp at h
  | ok res1 =>
    obtain ⟨w1, r1⟩ := res1
    obtain ⟨rfl, -, hp1⟩ := read_u32_ok_inv data pos w1 r1 h1
    rw [h1] at h
    simp only at h
    split_ifs at h with hz
    · simp only [Except.ok.injEq, Prod.mk.injEq, true_and] at h
      exact ⟨hp1, h.symm, w1, rfl, hz⟩
    · cases h2 : filereader.read_u32 ⟨data, pos + 4⟩ with
      | error e2 => rw [h2] at h; simp at h
      | ok res2 =>
        obtain ⟨w2, r2⟩ := res2
        rw [h2] at h
        simp only at h
        cases h3 : r2.read_u32 with
        | error e3 => rw [h3] at h; simp at h
        | ok res3 =>
          obtain ⟨w3, r3⟩ := res3
          rw [h3] at h
          simp only at h
          cases h4 : r3.read_u32 with
          | error e4 => rw [h4] at h; simp at h
          | ok res4 =>
            obtain ⟨w4, r4⟩ := res4
            rw [h4] at h
            simp only at h
            cases h5 : r4.read_string (decrypt_v3_int w4 key) with
            | error e5 => rw [h5] at h; simp at h
            | ok res5 => rw [h5] at h; simp at h

theorem v3_end_pos_nil (pos : Nat) : v3_end_pos pos [] = pos := by
  simp [v3_end_pos]

theorem v3_end_pos_cons (pos : Nat) (r : file_record) (rs : List file_record) :
    v3_end_pos pos (r :: rs) = v3_end_pos (pos + 16 + r.m_name.length) rs := by
  simp only [v3_end_pos, List.map_cons, List.sum_cons]
  omega

theorem v3_end_pos_ge (pos : Nat) (recs : List file_record) :
    pos + 16 * recs.length ≤ v3_end_pos pos recs := by
  induction recs generalizing pos with
  | nil => simp [v3_end_pos]
  | cons r rs ih =>
    rw [v3_end_pos_cons]
    have := ih (pos + 16 + r.m_name.length)
    simp only [List.length_cons]
    omega

theorem v3_decodes_of_loop (data : List Nat) (K : Nat) :
    ∀ (fuel pos : Nat) (acc recs : List file_record) (input' : filereader),
      unpack_v3.loop fuel ⟨data, pos⟩ K acc = .ok (recs, input') →
      ∃ new, recs = acc ++ new ∧ v3_decodes data K pos new ∧
        unpack_v3.entry ⟨data, v3_end_pos pos new⟩ K
          = .ok (none, ⟨data, v3_end_pos pos new + 4⟩) ∧
        input' = ⟨data, v3_end_pos pos new + 4⟩ := by
  intro fuel
  induction fuel with
  | zero => intro pos acc recs input' h; simp [unpack_v3.loop] at h
  | succ fuel ih =>
    intro pos acc recs input' h
    rw [unpack_v3_loop_succ] at h
    cases he : unpack_v3.entry ⟨data, pos⟩ K with
    | error e => rw [he] at h; simp at h
    | ok res =>
      obtain ⟨o, input1⟩ := res
      rw [he] at h
      cases o with
      | none =>
        simp only [Except.ok.injEq, Prod.mk.injEq] at h
        obtain ⟨-, hin, -⟩ := unpack_v3_entry_none_inv data pos K input1 he
        refine ⟨[], by simp [h.1], trivial, ?_, ?_⟩
        · rw [v3_end_pos_nil, he, hin]
        · rw [v3_end_pos_nil, ← h.2, hin]
      | some r =>
        simp only at h
        obtain ⟨-, hin, -⟩ := unpack_v3_entry_inv data pos K r input1 he
        rw [hin] at h he
        obtain ⟨new, hnew, hdec, hend, hin'⟩ := ih _ (acc ++ [r]) recs input' h
        refine ⟨r :: new, by simp [hnew], ⟨he, hdec⟩, ?_, ?_⟩
        · rw [v3_end_pos_cons]; exact hend
        · rw [v3_end_pos_cons]; exact hin'

/-- Claim C12.  On an archive on which the directory pass of `unpack_v1` succeeds, the
content key of the descriptor at index `j` is the seed `0xDEADCAFE` advanced once per name
byte and twice more for each of the descriptors up to index `j`; the content bytes and
content sizes do not enter. -/
theorem v1_content_key_threading (data : List Nat) (pos : Nat) (recs : List file_record)
    (input' : filereader) (hb : ∀ b ∈ data, b < 256)
    (hparse : unpack_v1.loop data.length ⟨data, pos⟩ 0xdeadcafe [] = .ok (recs, input')) :
    ∀ j r, recs[j]? = some r →
      r.m_key = key_advance^[((recs.take (j + 1)).map
        (fun x => x.m_name.length + 2)).sum] 0xdeadcafe := by
  obtain ⟨new, hnew, hdec⟩ :=
    v1_decodes_of_loop data hb _ pos 0xdeadcafe [] recs input' (by norm_num) hparse
  rw [List.nil_append] at hnew
  subst hnew
  exact v1_decodes_keys data hb recs pos 0xdeadcafe (by norm_num) hdec

/-- Witness of `v1_content_key_threading`: the archive of the files `a\b` and `c`. -/
theorem v1_content_key_threading_witness :
    ((∀ b ∈ v1_archive example_v1_entries, b < 256) ∧
      unpack_v1.loop (v1_archive example_v1_entries).length
          ⟨v1_archive example_v1_entries, 8⟩ 0xdeadcafe []
        = .ok (v1_records example_v1_entries 0xdeadcafe 8,
            ⟨v1_archive example_v1_entries, 33⟩)) ∧
      ∀ j r, (v1_records example_v1_entries 0xdeadcafe 8)[j]? = some r →
        r.m_key = key_advance^[(((v1_records example_v1_entries 0xdeadcafe 8).take (j + 1)).map
          (fun x => x.m_name.length + 2)).sum] 0xdeadcafe :=
  ⟨⟨by decide, rfl⟩,
    v1_content_key_threading (v1_archive example_v1_entries) 8
      (v1_records example_v1_entries 0xdeadcafe 8) ⟨v1_archive example_v1_entries, 33⟩
      (by decide) rfl⟩

theorem unpack_v3_loop_error (data : List Nat) (K : Nat) :
    ∀ (fuel pos : Nat) (acc : List file_record) (e : Error),
      unpack_v3.loop fuel ⟨data, pos⟩ K acc = .error e → e = .read ∨ e = .fuel := by
  intro fuel
  induction fuel with
  | zero =>
    intro pos acc e h
    simp only [unpack_v3.loop, Except.error.injEq] at h
    exact Or.inr h.symm
  | succ fuel ih =>
    intro pos acc e h
    rw [unpack_v3_loop_succ] at h
    cases he : unpack_v3.entry ⟨data, pos⟩ K with
    | error e1 =>
      rw [he] at h
      simp only [Except.error.injEq] at h
      rw [← h]
      exact Or.inl (unpack_v3_entry_error _ _ _ he)
    | ok res =>
      obtain ⟨o, input1⟩ := res
      rw [he] at h
      cases o with
      | none => simp at h
      | some r =>
        simp only at h
        obtain ⟨-, hin, -⟩ := unpack_v3_entry_inv data pos K r input1 he
        rw [hin] at h
        exact ih _ _ _ h

/-- The directory pass of `unpack_v3` ends with a list of records or with the error of a
read, and it returns no more records than the archive has groups of sixteen bytes. -/
theorem unpack_v3_records_total (data : List Nat) (pos : Nat) :
    unpack_v3.records ⟨data, pos⟩ = .error .read ∨
      ∃ recs input', unpack_v3.records ⟨data, pos⟩ = .ok (recs, input') ∧
        16 * recs.length ≤ data.length := by
  cases hres : unpack_v3.records ⟨data, pos⟩ with
  | error e =>
    left
    have hnf := unpack_v3_records_no_fuel ⟨data, pos⟩
    unfold unpack_v3.records at hres
    cases h1 : filereader.read_u32 ⟨data, pos⟩ with
    | error e1 =>
      rw [h1] at hres
      simp only [Except.error.injEq] at hres
      rw [← hres, read_u32_error_inv _ _ h1]
    | ok res1 =>
      obtain ⟨w, r1⟩ := res1
      obtain ⟨rfl, -, -⟩ := read_u32_ok_inv data pos w r1 h1
      rw [h1] at hres
      simp only at hres
      rcases unpack_v3_loop_error data _ _ _ _ e hres with h | h
      · rw [h]
      · exfalso
        apply hnf
        unfold unpack_v3.records
        rw [h1]
        simp only
        rw [hres, h]
  | ok res =>
    right
    obtain ⟨recs, input'⟩ := res
    refine ⟨recs, input', rfl, ?_⟩
    unfold unpack_v3.records at hres
    cases h1 : filereader.read_u32 ⟨data, pos⟩ with
    | error e1 => rw [h1] at hres; simp at hres
    | ok res1 =>
      obtain ⟨w, r1⟩ := res1
      obtain ⟨rfl, -, -⟩ := read_u32_ok_inv data pos w r1 h1
      rw [h1] at hres
      simp only at hres
      obtain ⟨new, hnew, -, hend, -⟩ := v3_decodes_of_loop data _ _ _ _ _ _ hres
      rw [List.nil_append] at hnew
      subst hnew
      obtain ⟨hlen, -, -⟩ := unpack_v3_entry_none_inv data _ _ _ hend
      have := v3_end_pos_ge (pos + 4) recs
      omega

/-- Claim C16.  For an archive of bytes, the loop of `unpack_v1` and the directory pass of
`unpack_v3` each end with a list of records or with the error of a read.  Each run of the
body of the v1 loop leaves the reader eight bytes or more further, each decoded v3 record
sixteen bytes or more further, and the records returned are at most the archive length
over 8 for v1 and over 16 for v3. -/
theorem directory_parsing_terminates (data : List Nat) (pos : Nat)
    (hb : ∀ b ∈ data, b < 256) (hlen : data.length + 2 ^ 32 ≤ 2 ^ 63) :
    ((unpack_v1.loop data.length ⟨data, pos⟩ 0xdeadcafe [] = .error .read ∨
        ∃ recs input', unpack_v1.loop data.length ⟨data, pos⟩ 0xdeadcafe []
            = .ok (recs, input') ∧ 8 * recs.length ≤ data.length) ∧
      ∀ p key r p' key', key < 2 ^ 32 →
        unpack_v1.entry ⟨data, p⟩ key = .ok (r, ⟨data, p'⟩, key') → p + 8 ≤ p') ∧
    ((unpack_v3.records ⟨data, pos⟩ = .error .read ∨
        ∃ recs input', unpack_v3.records ⟨data, pos⟩ = .ok (recs, input') ∧
          16 * recs.length ≤ data.length) ∧
      ∀ p K r p', unpack_v3.entry ⟨data, p⟩ K = .ok (some r, ⟨data, p'⟩) → p + 16 ≤ p') := by
  refine ⟨⟨?_, ?_⟩, unpack_v3_records_total data pos, ?_⟩
  · rcases unpack_v1_loop_total data hb hlen data.length pos 0xdeadcafe [] (by norm_num)
      (by omega) with h | ⟨recs, input', h⟩
    · exact Or.inl h
    · right
      refine ⟨recs, input', h, ?_⟩
      obtain ⟨new, hnew, hdec⟩ :=
        v1_decodes_of_loop data hb _ pos 0xdeadcafe [] recs input' (by norm_num) h
      rw [List.nil_append] at hnew
      subst hnew
      rcases v1_decodes_count data hb (by omega) recs pos 0xdeadcafe (by norm_num) hdec
        with h0 | h0
      · subst h0; simp
      · omega
  · intro p key r p' key' hk he
    exact (unpack_v1_entry_advances data hb (by omega) p key hk r p' key' he).1
  · intro p K r p' he
    obtain ⟨-, hin, -⟩ := unpack_v3_entry_inv data p K r _ he
    simp only [filereader.mk.injEq, true_and] at hin
    omega

/-- Witness of `directory_parsing_terminates`: the v1 archive of the files `a\b` and `c`,
read from position 8. -/
theorem directory_parsing_terminates_witness :
    ((∀ b ∈ v1_archive example_v1_entries, b < 256) ∧
      (v1_archive example_v1_entries).length + 2 ^ 32 ≤ 2 ^ 63) ∧
    (((unpack_v1.loop (v1_archive example_v1_entries).length
            ⟨v1_archive example_v1_entries, 8⟩ 0xdeadcafe [] = .error .read ∨
        ∃ recs input', unpack_v1.loop (v1_archive example_v1_entries).length
            ⟨v1_archive example_v1_entries, 8⟩ 0xdeadcafe []
            = .ok (recs, input') ∧ 8 * recs.length ≤ (v1_archive example_v1_entries).length) ∧
      ∀ p key r p' key', key < 2 ^ 32 →
        unpack_v1.entry ⟨v1_archive example_v1_entries, p⟩ key
          = .ok (r, ⟨v1_archive example_v1_entries, p'⟩, key') → p + 8 ≤ p') ∧
    ((unpack_v3.records ⟨v1_archive example_v1_entries, 8⟩ = .error .read ∨
        ∃ recs input', unpack_v3.records ⟨v1_archive example_v1_entries, 8⟩
            = .ok (recs, input') ∧
          16 * recs.length ≤ (v1_archive example_v1_entries).length) ∧
      ∀ p K r p', unpack_v3.entry ⟨v1_archive example_v1_entries, p⟩ K
          = .ok (some r, ⟨v1_archive example_v1_entries, p'⟩) → p + 16 ≤ p')) :=
  ⟨⟨by decide, by decide⟩,
    directory_parsing_terminates (v1_archive example_v1_entries) 8 (by decide) (by decide)⟩

/-- Claim C18.  On a v1 archive of bytes of length below `2 ^ 32` on which the directory
pass succeeds, for any two consecutive descriptors the offset plus size of the first is
below the archive length and at least eight bytes before the offset of the second: every
descriptor but the last lies inside the archive and the content ranges are disjoint and
increasing. -/
theorem v1_descriptors_inside (data : List Nat) (pos : Nat) (recs : List file_record)
    (input' : filereader) (hb : ∀ b ∈ data, b < 256) (hL : data.length < 2 ^ 32)
    (hparse : unpack_v1.loop data.length ⟨data, pos⟩ 0xdeadcafe [] = .ok (recs, input')) :
    ∀ i a b, recs[i]? = some a → recs[i + 1]? = some b →
      a.m_offset + a.m_size < data.length ∧ a.m_offset + a.m_size + 8 ≤ b.m_offset := by
  obtain ⟨new, hnew, hdec⟩ :=
    v1_decodes_of_loop data hb _ pos 0xdeadcafe [] recs input' (by norm_num) hparse
  rw [List.nil_append] at hnew
  subst hnew
  exact v1_decodes_ranges data hb hL recs pos 0xdeadcafe (by norm_num) hdec

/-- Witness of `v1_descriptors_inside`: the archive of the files `a\b` and `c`. -/
theorem v1_descriptors_inside_witness :
    ((∀ b ∈ v1_archive example_v1_entries, b < 256) ∧
      (v1_archive example_v1_entries).length < 2 ^ 32 ∧
      unpack_v1.loop (v1_archive example_v1_entries).length
          ⟨v1_archive example_v1_entries, 8⟩ 0xdeadcafe []
        = .ok (v1_records example_v1_entries 0xdeadcafe 8,
            ⟨v1_archive example_v1_entries, 33⟩)) ∧
      ∀ i a b, (v1_records example_v1_entries 0xdeadcafe 8)[i]? = some a →
        (v1_records example_v1_entries 0xdeadcafe 8)[i + 1]? = some b →
        a.m_offset + a.m_size < (v1_archive example_v1_entries).length ∧
          a.m_offset + a.m_size + 8 ≤ b.m_offset :=
  ⟨⟨by decide, by decide, rfl⟩,
    v1_descriptors_inside (v1_archive example_v1_entries) 8
      (v1_records example_v1_entries 0xdeadcafe 8) ⟨v1_archive example_v1_entries, 33⟩
      (by decide) (by decide) rfl⟩

/-! ## Claim C13 -/

theorem seven_pow_odd (m : Nat) : 7 ^ m % 2 = 1 := by
  induction m with
  | zero => rfl
  | succ m ih => rw [pow_succ, Nat.mul_mod, ih]

theorem key_advance_mod (a : Nat) : key_advance (a % 2 ^ 32) = (a * 7 + 3) % 2 ^ 32 := by
  unfold key_advance
  omega

/-- The key after `m` advances, in closed form. -/
theorem key_advance_iterate (m x : Nat) (hx : x < 2 ^ 32) :
    key_advance^[m] x = (7 ^ m * x + (7 ^ m - 1) / 2) % 2 ^ 32 := by
  induction m with
  | zero => simp; omega
  | succ m ih =>
    rw [Function.iterate_succ_apply', ih, key_advance_mod]
    have hodd := seven_pow_odd m
    have h1 : 7 ^ (m + 1) * x = 7 * (7 ^ m * x) := by ring
    have h2 : 7 ^ (m + 1) = 7 * 7 ^ m := by ring
    rw [h1, h2]
    congr 1
    omega

theorem le32_bytes_lt (w : Nat) : ∀ b ∈ le32_bytes w, b < 256 := by
  intro b hb
  simp only [le32_bytes, List.mem_cons, List.mem_singleton, List.not_mem_nil, or_false] at hb
  rcases hb with rfl | rfl | rfl | rfl <;> omega

theorem content_cipher_from_lt (key : Nat) (s : List Nat) :
    ∀ i, (∀ b ∈ s, b < 256) → ∀ c ∈ content_cipher_from key i s, c < 256 := by
  induction s with
  | nil => intro _ _ c hc; simp [content_cipher_from] at hc
  | cons b bs ih =>
    intro i hb c hc
    simp only [content_cipher_from, List.mem_cons] at hc
    rcases hc with rfl | hc
    · exact xor_lt_256 (hb b (List.mem_cons_self _ _)) (key_byte_lt _ _)
    · exact ih _ (fun x hx => hb x (List.mem_cons_of_mem _ hx)) c hc

theorem v1_encode_lt (entries : List v1_entry) :
    ∀ key, (∀ e ∈ entries, (∀ b ∈ e.name, b < 256) ∧ ∀ b ∈ e.content, b < 256) →
      ∀ b ∈ v1_encode entries key, b < 256 := by
  induction entries with
  | nil => intro _ _ b hb; simp [v1_encode] at hb
  | cons e es ih =>
    intro key h b hb
    obtain ⟨hn, hc⟩ := h e (List.mem_cons_self _ _)
    simp only [v1_encode, List.mem_append] at hb
    rcases hb with hb | hb | hb | hb | hb
    · exact le32_bytes_lt _ b hb
    · exact v1_encrypt_name_lt _ _ hn b hb
    · exact le32_bytes_lt _ b hb
    · exact content_cipher_from_lt _ _ _ hc b hb
    · exact ih _ (fun x hx => h x (List.mem_cons_of_mem _ hx)) b hb

theorem v1_archive_lt (entries : List v1_entry)
    (h : ∀ e ∈ entries, (∀ b ∈ e.name, b < 256) ∧ ∀ b ∈ e.content, b < 256) :
    ∀ b ∈ v1_archive entries, b < 256 := by
  intro b hb
  simp only [v1_archive, List.mem_append, List.mem_cons] at hb
  rcases hb with hb | rfl | hb
  · revert b; decide
  · norm_num
  · exact v1_encode_lt entries _ h b hb

theorem sequential_entries_lt :
    ∀ e ∈ sequential_entries, (∀ b ∈ e.name, b < 256) ∧ ∀ b ∈ e.content, b < 256 := by
  intro e he
  simp only [sequential_entries, List.mem_cons, List.mem_singleton, List.not_mem_nil,
    or_false] at he
  rcases he with rfl | rfl
  · refine ⟨fun b hb => ?_, fun b hb => by simp at hb⟩
    rw [List.eq_of_mem_replicate hb]; norm_num
  · refine ⟨fun b hb => ?_, fun b hb => by simp at hb⟩
    rw [List.eq_of_mem_replicate hb]; norm_num

/-- Length of the encoded v1 entry sequence: eight header bytes per entry plus name and content. -/
theorem v1_encode_length (entries : List v1_entry) :
    ∀ key, (v1_encode entries key).length
      = (entries.map (fun e => 8 + e.name.length + e.content.length)).sum := by
  induction entries with
  | nil => intro _; rfl
  | cons e es ih =>
    intro key
    simp only [v1_encode, List.length_append, le32_bytes_length, v1_encrypt_name_length,
      content_cipher_from_length, ih, List.map_cons, List.sum_cons]
    omega

/-- Length of an encoded v1 archive. -/
theorem v1_archive_length (entries : List v1_entry) :
    (v1_archive entries).length
      = 8 + (entries.map (fun e => 8 + e.name.length + e.content.length)).sum := by
  simp only [v1_archive, RGSSAD, List.length_append, List.length_cons, List.length_nil,
    v1_encode_length]
  omega

/-- Decrypting the empty filename leaves the key alone. -/
theorem decrypt_v1_filename_nil (key : Nat) : decrypt_v1_filename [] key = ([], key) := rfl

/-- In a v1 archive of two files without content whose names have 19325 and 31891 bytes,
the body of the loop run at the first byte of the second entry with the seed as key decodes
the name length `0`. -/
theorem sequential_dependency_of (name1 name2 : List Nat) (h1 : name1.length = 19325)
    (h2 : name2.length = 31891) (hb1 : ∀ b ∈ name1, b < 256) (hb2 : ∀ b ∈ name2, b < 256) :
    ∃ (r1 r2 r2' : file_record) (input' input3 input'' : filereader) (key3 key' : Nat),
      unpack_v1.loop (v1_archive [⟨name1, []⟩, ⟨name2, []⟩]).length
          ⟨v1_archive [⟨name1, []⟩, ⟨name2, []⟩], 8⟩ 0xdeadcafe [] = .ok ([r1, r2], input') ∧
        unpack_v1.entry ⟨v1_archive [⟨name1, []⟩, ⟨name2, []⟩], r1.m_offset + r1.m_size⟩
          r1.m_key = .ok (r2, input3, key3) ∧
        unpack_v1.entry ⟨v1_archive [⟨name1, []⟩, ⟨name2, []⟩], r1.m_offset + r1.m_size⟩
          0xdeadcafe = .ok (r2', input'', key') ∧
        r2.m_name = name2.map normalize_separator ∧ r2'.m_name = [] := by
  have hlen : (v1_archive [⟨name1, []⟩, ⟨name2, []⟩]).length = 51240 := by
    rw [v1_archive_length]
    simp only [List.map_cons, List.map_nil, List.length_nil, List.sum_cons, List.sum_nil, h1, h2]
    omega
  have hent : ∀ e ∈ [(⟨name1, []⟩ : v1_entry), ⟨name2, []⟩],
      (∀ b ∈ e.name, b < 256) ∧ ∀ b ∈ e.content, b < 256 := by
    intro e he
    simp only [List.mem_cons, List.mem_singleton, List.not_mem_nil, or_false] at he
    rcases he with rfl | rfl
    · exact ⟨hb1, fun b hb => by simp at hb⟩
    · exact ⟨hb2, fun b hb => by simp at hb⟩
  have hbytes := v1_archive_lt _ hent
  have hK1 : v1_content_key ⟨name1, []⟩ 0xdeadcafe = 3735926381 := by
    have e1 : key_advance^[19327] 0xdeadcafe = key_advance (key_advance^[19326] 0xdeadcafe) :=
      Function.iterate_succ_apply' key_advance 19326 _
    have e2 : key_advance^[19326] 0xdeadcafe = key_advance^[19325] (key_advance 0xdeadcafe) :=
      Function.iterate_succ_apply key_advance 19325 _
    have h : v1_content_key ⟨name1, []⟩ 0xdeadcafe = key_advance^[19327] 0xdeadcafe := by
      simp only [v1_content_key, h1]
      rw [e1, e2]
    rw [h, key_advance_iterate _ _ (by norm_num)]
    norm_num
  generalize hdata : v1_archive [⟨name1, []⟩, ⟨name2, []⟩] = data at hlen hbytes ⊢
  have hd0 : data.drop 8 = v1_encode [⟨name1, []⟩, ⟨name2, []⟩] 0xdeadcafe := by
    rw [← hdata]; exact v1_archive_drop _
  have hmaxn : ∀ e ∈ [(⟨name1, []⟩ : v1_entry), ⟨name2, []⟩],
      e.name.length ≤ MAX_RW_COUNT := by
    intro e he
    simp only [List.mem_cons, List.mem_singleton, List.not_mem_nil, or_false] at he
    rcases he with rfl | rfl
    · show name1.length ≤ MAX_RW_COUNT
      rw [h1]
      decide
    · show name2.length ≤ MAX_RW_COUNT
      rw [h2]
      decide
  have hloop := unpack_v1_loop_eq data (by omega) [⟨name1, []⟩, ⟨name2, []⟩] 0xdeadcafe 8
    data.length [] (by simp only [List.length_cons, List.length_nil]; omega)
    (fun e he => (hent e he).1) hmaxn (by norm_num) (by omega) hd0
  simp only [List.nil_append, v1_records] at hloop
  obtain ⟨new, hnew, hdec⟩ := v1_decodes_of_loop data hbytes _ 8 0xdeadcafe [] _ _
    (by norm_num) hloop
  rw [List.nil_append] at hnew
  subst hnew
  obtain ⟨-, pos', key', he1, -, pos'', key'', he2, -⟩ := hdec
  obtain ⟨hin1, -, hoff1, hsz1, -, hkey1, hpos1, -⟩ :=
    unpack_v1_entry_inv data hbytes 8 _ (by norm_num) _ _ _ he1
  simp only [filereader.mk.injEq, true_and, List.length_map, List.length_nil, h1] at hpos1 hkey1
  have hp : pos' = 19341 := by rw [hpos1]; norm_num
  subst hp
  rw [hkey1, hK1] at he2
  simp only [h1, h2, hK1, List.length_nil] at hloop he2
  simp only [v1_encode, h1, h2, hK1, List.length_nil] at hd0
  have d1 := drop_add_of_drop data 8 _ _ hd0
  rw [le32_bytes_length] at d1
  have d2 := drop_add_of_drop data (8 + 4) _ _ d1
  rw [v1_encrypt_name_length, h1] at d2
  have d3 := drop_add_of_drop data (8 + 4 + 19325) _ _ d2
  rw [le32_bytes_length] at d3
  have d4 := drop_add_of_drop data (8 + 4 + 19325 + 4) _ _ d3
  rw [content_cipher_from_length, List.length_nil] at d4
  have f1 := read_u32_drop data (8 + 4 + 19325 + 4 + 0) _ _
    (xor_lt_u32 (by norm_num) (by norm_num)) d4
  have f2 := read_drop data (8 + 4 + 19325 + 4 + 0 + 4) [] _ (List.nil_append _).symm
    (by decide)
  have f3 := read_of_le data (8 + 4 + 19325 + 4 + 0 + 4 + 0) 4 (by omega) (by decide)
  have hw3 : le32 ((data.drop (8 + 4 + 19325 + 4 + 0 + 4 + 0)).take 4) < 2 ^ 32 :=
    le32_lt _ (read_bytes_lt data hbytes _ _)
  have hsize : le32 ((data.drop (8 + 4 + 19325 + 4 + 0 + 4 + 0)).take 4)
      ^^^ key_advance 0xdeadcafe < 2 ^ 32 := xor_lt_u32 hw3 (key_advance_lt _)
  have hzero : (31891 ^^^ 3735926381) ^^^ 0xdeadcafe = 0 := by decide
  have hfresh : ∃ r2' input'' key',
      unpack_v1.entry ⟨data, 19341 + 0⟩ 0xdeadcafe = .ok (r2', input'', key') ∧
        r2'.m_name = [] := by
    unfold unpack_v1.entry
    simp only [Nat.reduceAdd] at f1 f2 f3 hsize ⊢
    simp only [f1, decrypt_v1_int, hzero, filereader.read_string]
    simp only [List.length_nil, Nat.add_zero] at f2
    simp only [f2, decrypt_v1_filename_nil, filereader.read_u32, f3, filereader.offset]
    unfold filereader.seek
    rw [if_neg (by omega)]
    exact ⟨_, _, _, rfl, rfl⟩
  obtain ⟨r2', input'', key', hf, hname⟩ := hfresh
  exact ⟨_, _, r2', _, _, input'', _, key', hloop, he2, hf, rfl, hname⟩

/-- Claim C13. The v1 directory is sequentially dependent: in the well-formed two-entry
archive `v1_archive sequential_entries` the real parse returns two records, the second one
being what the loop body decodes at the first byte of the second entry with the key left
by the first entry; the same loop body run at the same byte with the freshly seeded key
`0xDEADCAFE` also returns a record, and its filename differs from the real one. -/
theorem v1_sequential_dependency :
    ∃ (r1 r2 r2' : file_record) (input' input3 input'' : filereader) (key3 key' : Nat),
      unpack_v1.loop (v1_archive sequential_entries).length
          ⟨v1_archive sequential_entries, 8⟩ 0xdeadcafe [] = .ok ([r1, r2], input') ∧
        unpack_v1.entry ⟨v1_archive sequential_entries, r1.m_offset + r1.m_size⟩
          r1.m_key = .ok (r2, input3, key3) ∧
        unpack_v1.entry ⟨v1_archive sequential_entries, r1.m_offset + r1.m_size⟩
          0xdeadcafe = .ok (r2', input'', key') ∧
        r2'.m_name ≠ r2.m_name := by
  obtain ⟨r1, r2, r2', input', input3, input'', key3, key', hl, he, hf, hn, hn'⟩ :=
    sequential_dependency_of (List.replicate 19325 0x61) (List.replicate 31891 0x61)
      (List.length_replicate _ _) (List.length_replicate _ _)
      (fun b hb => by rw [List.eq_of_mem_replicate hb]; norm_num)
      (fun b hb => by rw [List.eq_of_mem_replicate hb]; norm_num)
  refine ⟨r1, r2, r2', input', input3, input'', key3, key', hl, he, hf, ?_⟩
  intro h
  have hlen := congrArg List.length h
  rw [hn, hn', List.length_map, List.length_replicate, List.length_nil] at hlen
  omega

/-! ## Creating the directories of a name -/

/-- Before the index `indexOf` returns there is no occurrence. -/
theorem getD_ne_of_lt_indexOf (c : Nat) :
    ∀ (l : List Nat) (n : Nat), n < l.indexOf c → l.getD n 0 ≠ c := by
  intro l
  induction l with
  | nil => intro n h; simp at h
  | cons a l ih =>
    intro n h
    by_cases hac : a = c
    · subst hac; simp at h
    · rw [List.indexOf_cons_ne _ hac] at h
      cases n with
      | zero => simpa using hac
      | succ m => simpa using ih m (by omega)

theorem getD_drop (s : List Nat) (i j : Nat) : (s.drop i).getD j 0 = s.getD (i + j) 0 := by
  simp only [List.getD_eq_getElem?_getD, List.getElem?_drop]

/-- What `find` returns is the first occurrence from the start position on. -/
theorem find_some_first (s : List Nat) (c i e : Nat) (h : find s c i = some e) :
    ∀ n, i ≤ n → n < e → s.getD n 0 ≠ c := by
  intro n hin hne
  unfold find at h
  simp only at h
  split_ifs at h with hlt
  simp only [Option.some.injEq] at h
  have := getD_ne_of_lt_indexOf c (s.drop i) (n - i) (by omega)
  rw [getD_drop] at this
  rwa [show i + (n - i) = n by omega] at this

/-- When `find` returns `npos` there is no occurrence from the start position on. -/
theorem find_none_all (s : List Nat) (c i : Nat) (h : find s c i = none) :
    ∀ n, i ≤ n → n < s.length → s.getD n 0 ≠ c := by
  intro n hin hn
  unfold find at h
  simp only at h
  split_ifs at h with hlt
  have := getD_ne_of_lt_indexOf c (s.drop i) (n - i) (by omega)
  rw [getD_drop] at this
  rwa [show i + (n - i) = n by omega] at this

theorem filter_range'_nil (p : Nat → Bool) (i k : Nat) (h : ∀ n, i ≤ n → n < i + k → p n = false) :
    (List.range' i k).filter p = [] := by
  rw [List.filter_eq_nil_iff]
  intro n hn
  rw [List.mem_range'_1] at hn
  simp [h n hn.1 hn.2]


/-- The loop of `make_directory` from position `i` on calls `mkdir` on the C strings of the
prefixes that end before the `'/'` characters at index `i` or later, in order, up to the
first failure. -/
theorem make_directory_loop_scan (io : OutputIO) (filename : List Nat) :
    ∀ fuel i, filename.length ≤ fuel + i →
      make_directory.loop io filename fuel i
        = create_in_order io
            (((List.range' i (filename.length - i)).filter
              (fun n => filename.getD n 0 = 0x2f)).map (fun n => c_str (filename.take n))) := by
  intro fuel
  induction fuel with
  | zero =>
    intro i hi
    simp [make_directory.loop, find_none_of_le filename 0x2f i (by omega),
      show filename.length - i = 0 by omega, create_in_order]
  | succ fuel ih =>
    intro i hi
    cases hf : find filename 0x2f i with
    | none =>
      rw [filter_range'_nil _ _ _ (fun n h1 h2 => by
        simpa using find_none_all filename 0x2f i hf n h1 (by omega))]
      simp [make_directory.loop, hf, create_in_order]
    | some e =>
      obtain ⟨hie, hel, heq⟩ := find_some filename 0x2f i e hf
      have hfirst := find_some_first filename 0x2f i e hf
      have hsplit : List.range' i (filename.length - i)
          = List.range' i (e - i) ++ e :: List.range' (e + 1) (filename.length - (e + 1)) := by
        have h1 : filename.length - i = (1 + (filename.length - (e + 1))) + (e - i) := by omega
        rw [h1, ← List.range'_append_1, show i + (e - i) = e by omega, Nat.add_comm 1,
          List.range'_succ]
      rw [hsplit, List.filter_append, filter_range'_nil _ _ _ (fun n h1 h2 => by
        simpa using hfirst n h1 (by omega)), List.nil_append,
        List.filter_cons_of_pos (by simpa using heq), List.map_cons]
      simp only [make_directory.loop, hf, create_in_order, ih (e + 1) (by omega)]

/-- When every call succeeds or reports `EEXIST`, all paths are tried and the run succeeds. -/
theorem create_in_order_ok (io : OutputIO) :
    ∀ paths : List (List Nat), (∀ p ∈ paths, io.mkdir p = 0 ∨ io.mkdir p = EEXIST) →
      create_in_order io paths = (paths.map Effect.mkdir, none) := by
  intro paths
  induction paths with
  | nil => intro _; rfl
  | cons p ps ih =>
    intro h
    have hnot : ¬ (io.mkdir p ≠ 0 ∧ io.mkdir p ≠ EEXIST) := by
      rintro ⟨h0, h1⟩
      rcases h p (List.mem_cons_self _ _) with h' | h'
      · exact h0 h'
      · exact h1 h'
    simp only [create_in_order, hnot, if_false, ih (fun q hq => h q (List.mem_cons_of_mem _ hq)),
      List.map_cons]

theorem mem_slash_prefixes (name p : List Nat) :
    p ∈ slash_prefixes name ↔ ∃ n, n < name.length ∧ name.getD n 0 = 0x2f ∧ name.take n = p := by
  simp only [slash_prefixes, List.mem_map, List.mem_filter, List.mem_range, decide_eq_true_eq,
    and_assoc]

theorem take_append_getD (name : List Nat) (n : Nat) (h : n < name.length) :
    name.take n ++ [name.getD n 0] <+: name := by
  refine ⟨name.drop (n + 1), ?_⟩
  rw [List.getD_eq_getElem?_getD, List.getElem?_eq_getElem h, Option.getD_some,
    List.append_assoc, List.singleton_append, List.getElem_cons_drop, List.take_append_drop]

/-- The prefixes come in order of increasing length. -/
theorem slash_prefixes_increasing (name : List Nat) :
    (slash_prefixes name).Pairwise (fun p q => p.length < q.length) := by
  unfold slash_prefixes
  rw [List.pairwise_map]
  have h : ((List.range name.length).filter (fun n => name.getD n 0 = 0x2f)).Pairwise
      (fun a b => a < b) := (List.pairwise_lt_range name.length).filter _
  refine h.imp_of_mem ?_
  intro a b ha hb hab
  simp only [List.mem_filter, List.mem_range] at ha hb
  simp only [List.length_take]
  omega

/-- Claim C19 (amended). For every name that does not begin with `'/'`, `make_directory`
calls `mkdir` on the C strings (the bytes before the first NUL) of the prefixes of the name
that end right before each `'/'`, in order, and stops with the error at the first call that
fails with an `errno` other than `EEXIST`; when every such call succeeds or reports `EEXIST`
it issues all of them and succeeds.  Each of these prefixes followed by `'/'` is a prefix of
the name, they come in order of increasing length, and none of them is empty. -/
theorem make_directory_creates_prefixes (io : OutputIO) (filename : List Nat)
    (hhead : filename.head? ≠ some 0x2f) :
    make_directory io filename = create_in_order io ((slash_prefixes filename).map c_str) ∧
      ((∀ p ∈ slash_prefixes filename, io.mkdir (c_str p) = 0 ∨ io.mkdir (c_str p) = EEXIST) →
        make_directory io filename
          = ((slash_prefixes filename).map (fun p => Effect.mkdir (c_str p)), none)) ∧
      (∀ p ∈ slash_prefixes filename, p ++ [0x2f] <+: filename) ∧
      (slash_prefixes filename).Pairwise (fun p q => p.length < q.length) ∧
      [] ∉ slash_prefixes filename := by
  have hscan : make_directory io filename
      = create_in_order io ((slash_prefixes filename).map c_str) := by
    have h := make_directory_loop_scan io filename filename.length 0 (by omega)
    rw [Nat.sub_zero, ← List.range_eq_range'] at h
    rw [make_directory, h, slash_prefixes, List.map_map]
    rfl
  refine ⟨hscan, ?_, ?_, slash_prefixes_increasing filename, ?_⟩
  · intro hmk
    rw [hscan, create_in_order_ok io _ (by simpa using hmk), List.map_map]
    rfl
  · intro p hp
    obtain ⟨n, hn, hc, rfl⟩ := (mem_slash_prefixes filename p).1 hp
    rw [← hc]
    exact take_append_getD filename n hn
  · intro hmem
    obtain ⟨n, hn, hc, ht⟩ := (mem_slash_prefixes filename []).1 hmem
    cases filename with
    | nil => simp at hn
    | cons a l =>
      cases n with
      | zero => simp at hc; simp [hc] at hhead
      | succ m => simp at ht

/-- Witness of `make_directory_creates_prefixes`: the name `a/b/c`. -/
theorem make_directory_creates_prefixes_witness :
    nested_name.head? ≠ some 0x2f ∧
      (make_directory always_ok nested_name
          = create_in_order always_ok ((slash_prefixes nested_name).map c_str) ∧
        ((∀ p ∈ slash_prefixes nested_name,
            always_ok.mkdir (c_str p) = 0 ∨ always_ok.mkdir (c_str p) = EEXIST) →
          make_directory always_ok nested_name
            = ((slash_prefixes nested_name).map (fun p => Effect.mkdir (c_str p)), none)) ∧
        (∀ p ∈ slash_prefixes nested_name, p ++ [0x2f] <+: nested_name) ∧
        (slash_prefixes nested_name).Pairwise (fun p q => p.length < q.length) ∧
        [] ∉ slash_prefixes nested_name) :=
  ⟨by decide, make_directory_creates_prefixes always_ok nested_name (by decide)⟩

/-- Claim C19 as stated fails.  For the name `a`, NUL, `b/c` the directory creation is issued
at `a`, not at the prefix `a`, NUL, `b`.  For the name `/a` the one prefix is the empty path,
which is no directory: where `mkdir` rejects the empty path with `ENOENT`, `make_directory`
fails, and the v1 archive of one file named `\a` is unpacked with that error and no file
written. -/
theorem ancestor_creation_as_stated_fails :
    (slash_prefixes nul_directory_name = [[0x61, 0, 0x62]] ∧
      make_directory always_ok nul_directory_name = ([.mkdir [0x61]], none)) ∧
    (slash_prefixes leading_slash_name = [[]] ∧
      make_directory empty_path_rejected leading_slash_name
        = ([.mkdir []], some (.mkdir ENOENT)) ∧
      unpack empty_path_rejected (v1_archive leading_backslash_v1_entries)
        = ([.mkdir []], some (.mkdir ENOENT))) := by
  decide

end RpgUnpack
